import Mathlib

/-! # zed-prompts: conversion between the LMDB prompt store and a JSON snapshot

A shallow embedding of `prompts.go`.

* Go strings and byte slices are modelled by `String`, a sequence of Unicode
  scalar values: every string the program holds comes out of `json.Unmarshal`,
  which only produces valid UTF-8.
* `encoding/json` is modelled for the three record types of the program:
  `json.Marshal` / `json.MarshalIndent` as printers, `json.Unmarshal` as a
  parser to a JSON value followed by a decoder into the Go struct.
* The LMDB environment is modelled by its two named databases, each either
  absent or a list of `(key, value)` records in cursor order.
-/

set_option autoImplicit false
set_option maxRecDepth 100000

namespace ZedPrompts

/-! ## Data model (`prompts.go`, lines 30-50) -/

/-- Go `type ID struct { Kind string; UUID string }`. -/
structure ID where
  kind : String
  uuid : String
  deriving DecidableEq, Repr

/-- Go `type Metadata struct { ID ID; Title string; Default bool; SavedAt string }`. -/
structure Metadata where
  id : ID
  title : String
  default : Bool
  savedAt : String
  deriving DecidableEq, Repr

/-- Go `type Prompt struct { Metadata Metadata; Content string }`. -/
structure Prompt where
  metadata : Metadata
  content : String
  deriving DecidableEq, Repr

/-! ## `json.Marshal` for the record types -/

/-- Go `const hex = "0123456789abcdef"`, indexed. -/
def hexDigit (n : Nat) : Char :=
  "0123456789abcdef".toList.getD n '0'

/-- Go `htmlSafeSet[b]` for an ASCII character: everything from the space up
except the double quote, the backslash and `<`, `>`, `&`. -/
def htmlSafe (c : Char) : Bool :=
  decide (0x20 ≤ c.toNat) && c != '"' && c != '\\' && c != '<' && c != '>' && c != '&'

/-- One iteration of the loop of `appendString(dst, src, escapeHTML = true)`:
the text appended for one character of the source string. -/
def escapeChar (c : Char) : List Char :=
  if c.toNat < 0x80 then
    if htmlSafe c then [c]
    else if c = '\\' ∨ c = '"' then ['\\', c]
    else if c = '\x08' then ['\\', 'b']
    else if c = '\x0c' then ['\\', 'f']
    else if c = '\n' then ['\\', 'n']
    else if c = '\r' then ['\\', 'r']
    else if c = '\t' then ['\\', 't']
    else ['\\', 'u', '0', '0', hexDigit (c.toNat >>> 4), hexDigit (c.toNat &&& 0xF)]
  else if c = '\u2028' ∨ c = '\u2029' then
    ['\\', 'u', '2', '0', '2', hexDigit (c.toNat &&& 0xF)]
  else [c]

/-- The body of a JSON string literal for `s`, without the surrounding quotes. -/
def escapeChars : List Char → List Char
  | [] => []
  | c :: cs => escapeChar c ++ escapeChars cs

/-- Go `appendString`: the quoted JSON string literal of `s`. -/
def quote (s : String) : List Char :=
  '"' :: (escapeChars s.data ++ ['"'])

/-- The characters of `json.Marshal(id)` for an `ID`: fields in declaration
order, no whitespace. -/
def marshalIDChars (id : ID) : List Char :=
  "\x7b\"kind\":".data ++ quote id.kind ++ ",\"uuid\":".data ++ quote id.uuid ++ ['\x7d']

/-- Go `json.Marshal(id)` for an `ID`. It cannot fail for a struct of strings. -/
def marshalID (id : ID) : String :=
  ⟨marshalIDChars id⟩

/-- The characters of `json.Marshal(m)` for a `Metadata`. -/
def marshalMetadataChars (m : Metadata) : List Char :=
  "\x7b\"id\":".data ++ marshalIDChars m.id ++ ",\"title\":".data ++ quote m.title
    ++ ",\"default\":".data ++ (if m.default then "true".data else "false".data)
    ++ ",\"saved_at\":".data ++ quote m.savedAt ++ ['\x7d']

/-- Go `json.Marshal(m)` for a `Metadata`. It cannot fail for this struct. -/
def marshalMetadata (m : Metadata) : String :=
  ⟨marshalMetadataChars m⟩

/-! ## `json.Unmarshal`: scanning JSON text -/

/-- A parsed JSON value. Numbers keep their literal text. -/
inductive JVal where
  | null : JVal
  | bool : Bool → JVal
  | num : List Char → JVal
  | str : String → JVal
  | arr : List JVal → JVal
  | obj : List (String × JVal) → JVal

/-- Go `isSpace` of the scanner: space, tab, carriage return, line feed. -/
def isSpace (c : Char) : Bool :=
  c = ' ' || c = '\t' || c = '\r' || c = '\n'

/-- Skips JSON whitespace. -/
def skipWS : List Char → List Char
  | [] => []
  | c :: cs => if isSpace c then skipWS cs else c :: cs

/-- The value of a hexadecimal digit, as accepted by Go `getu4`. -/
def hexVal (c : Char) : Option Nat :=
  if '0'.toNat ≤ c.toNat ∧ c.toNat ≤ '9'.toNat then some (c.toNat - '0'.toNat)
  else if 'a'.toNat ≤ c.toNat ∧ c.toNat ≤ 'f'.toNat then some (c.toNat - 'a'.toNat + 10)
  else if 'A'.toNat ≤ c.toNat ∧ c.toNat ≤ 'F'.toNat then some (c.toNat - 'A'.toNat + 10)
  else none

/-- The number written by four hexadecimal digits. -/
def hex4 (a b c d : Char) : Option Nat :=
  match hexVal a, hexVal b, hexVal c, hexVal d with
  | some x, some y, some z, some w => some (((x * 16 + y) * 16 + z) * 16 + w)
  | _, _, _, _ => none

/-- The number written by the first four characters, when they are
hexadecimal digits. -/
def hex4At : List Char → Option Nat
  | a :: b :: c :: d :: _ => hex4 a b c d
  | _ => none

/-- Go `getu4`: the code unit of a leading `\uXXXX` escape, if there is one. -/
def getu4 : List Char → Option Nat
  | b :: u :: rest => if b = '\\' ∧ u = 'u' then hex4At rest else none
  | _ => none

/-- Go `utf16.IsSurrogate`. -/
def isSurrogate (r : Nat) : Bool :=
  decide (0xD800 ≤ r) && decide (r < 0xE000)

/-- Go `utf16.DecodeRune`: the code point of a surrogate pair, or U+FFFD. -/
def decodeSurrogates (r1 r2 : Nat) : Nat :=
  if 0xD800 ≤ r1 ∧ r1 < 0xDC00 ∧ 0xDC00 ≤ r2 ∧ r2 < 0xE000 then
    (r1 - 0xD800) * 0x400 + (r2 - 0xDC00) + 0x10000
  else 0xFFFD

/-- The character of a one-letter escape `\e`, as accepted by the scanner. -/
def simpleEscape (e : Char) : Option Char :=
  if e = '"' then some '"'
  else if e = '\\' then some '\\'
  else if e = '/' then some '/'
  else if e = 'b' then some '\x08'
  else if e = 'f' then some '\x0c'
  else if e = 'n' then some '\n'
  else if e = 'r' then some '\r'
  else if e = 't' then some '\t'
  else none

/-- Adds a decoded character in front of the decoded rest of a string. -/
def consChar (c : Char) (r : Option (List Char × List Char)) : Option (List Char × List Char) :=
  match r with
  | none => none
  | some (s, rest) => some (c :: s, rest)

/-- The escape switch of Go `unquote`, on the input after a backslash: the
character the escape stands for and the number of input characters it takes
up. An escape `\uXXXX` that is half of a surrogate pair gives U+FFFD unless a
matching low half follows, in which case the pair is read as one character. -/
def unescape : List Char → Option (Char × Nat)
  | [] => none
  | e :: rest =>
    if e = 'u' then
      match hex4At rest with
      | none => none
      | some rr =>
        if isSurrogate rr then
          match getu4 (rest.drop 4) with
          | none => some (Char.ofNat 0xFFFD, 5)
          | some rr1 =>
            if decodeSurrogates rr rr1 ≠ 0xFFFD then
              some (Char.ofNat (decodeSurrogates rr rr1), 11)
            else some (Char.ofNat 0xFFFD, 5)
        else some (Char.ofNat rr, 5)
    else
      match simpleEscape e with
      | none => none
      | some ch => some (ch, 1)

/-- The scanner's string state together with Go `unquote`: reads the body of a
string literal after its opening quote and returns the decoded characters and
the input after the closing quote. `skip` is the number of characters still to
pass over as part of the escape just decoded. Control characters and escapes
the scanner does not know are rejected. -/
def parseStringBody : Nat → List Char → Option (List Char × List Char)
  | _, [] => none
  | skip + 1, _ :: rest => parseStringBody skip rest
  | 0, c :: rest =>
    if c = '"' then some ([], rest)
    else if c = '\\' then
      match unescape rest with
      | none => none
      | some (ch, n) => consChar ch (parseStringBody n rest)
    else if c.toNat < 0x20 then none
    else consChar c (parseStringBody 0 rest)

/-- Reads a run of decimal digits. -/
def takeDigits : List Char → List Char × List Char
  | [] => ([], [])
  | c :: cs =>
    if c.isDigit then ((takeDigits cs).1.cons c, (takeDigits cs).2) else ([], c :: cs)

/-- Drops a leading character `c`, if it is there. -/
def dropChar (c : Char) : List Char → List Char × List Char
  | [] => ([], [])
  | d :: t => if d = c then ([c], t) else ([], d :: t)

/-- The scanner's number states: `-? (0 | [1-9][0-9]*) (. [0-9]+)? ([eE] [+-]? [0-9]+)?`.
Returns the literal text and the rest of the input. -/
def parseNumber (cs : List Char) : Option (List Char × List Char) :=
  let (sign, cs1) := dropChar '-' cs
  let intPart : Option (List Char × List Char) :=
    match dropChar '0' cs1 with
    | ([], _) =>
      match takeDigits cs1 with
      | ([], _) => none
      | (ds, r) => some (ds, r)
    | (z, t) => some (z, t)
  match intPart with
  | none => none
  | some (ip, cs2) =>
    let frac : Option (List Char × List Char) :=
      match dropChar '.' cs2 with
      | ([], _) => some ([], cs2)
      | (dot, t) =>
        match takeDigits t with
        | ([], _) => none
        | (ds, r) => some (dot ++ ds, r)
    match frac with
    | none => none
    | some (fp, cs3) =>
      let exp : Option (List Char × List Char) :=
        match cs3 with
        | [] => some ([], [])
        | e :: t =>
          if e = 'e' ∨ e = 'E' then
            let (sg, t1) :=
              match dropChar '+' t with
              | ([], _) => dropChar '-' t
              | r => r
            match takeDigits t1 with
            | ([], _) => none
            | (ds, r) => some (e :: (sg ++ ds), r)
          else some ([], e :: t)
      match exp with
      | none => none
      | some (ep, cs4) => some (sign ++ ip ++ fp ++ ep, cs4)

/-- Strips the literal `lit` from the front of the input. -/
def stripLit : List Char → List Char → Option (List Char)
  | [], cs => some cs
  | _ :: _, [] => none
  | l :: ls, c :: cs => if l = c then stripLit ls cs else none

/-- Go `maxNestingDepth` of the scanner. -/
def maxNestingDepth : Nat := 10000

mutual
/-- Reads one JSON value after optional whitespace. `depth` counts the arrays
and objects that are open; `fuel` bounds the recursion. -/
def parseValue : Nat → Nat → List Char → Option (JVal × List Char)
  | 0, _, _ => none
  | fuel + 1, depth, cs =>
    match skipWS cs with
    | [] => none
    | c :: rest =>
      if c = '\x7b' then
        if depth + 1 > maxNestingDepth then none
        else
          match skipWS rest with
          | [] => none
          | d :: rest1 =>
            if d = '\x7d' then some (JVal.obj [], rest1)
            else
              match parseMembers fuel (depth + 1) (d :: rest1) with
              | none => none
              | some (kvs, rest2) => some (JVal.obj kvs, rest2)
      else if c = '[' then
        if depth + 1 > maxNestingDepth then none
        else
          match skipWS rest with
          | [] => none
          | d :: rest1 =>
            if d = ']' then some (JVal.arr [], rest1)
            else
              match parseElements fuel (depth + 1) (d :: rest1) with
              | none => none
              | some (xs, rest2) => some (JVal.arr xs, rest2)
      else if c = '"' then
        match parseStringBody 0 rest with
        | none => none
        | some (s, rest1) => some (JVal.str ⟨s⟩, rest1)
      else if c = 't' then
        match stripLit "rue".data rest with
        | none => none
        | some rest1 => some (JVal.bool true, rest1)
      else if c = 'f' then
        match stripLit "alse".data rest with
        | none => none
        | some rest1 => some (JVal.bool false, rest1)
      else if c = 'n' then
        match stripLit "ull".data rest with
        | none => none
        | some rest1 => some (JVal.null, rest1)
      else
        match parseNumber (c :: rest) with
        | none => none
        | some (n, rest1) => some (JVal.num n, rest1)
/-- Reads the elements of an array up to and including the closing bracket. -/
def parseElements : Nat → Nat → List Char → Option (List JVal × List Char)
  | 0, _, _ => none
  | fuel + 1, depth, cs =>
    match parseValue fuel depth cs with
    | none => none
    | some (v, rest) =>
      match skipWS rest with
      | [] => none
      | c :: rest1 =>
        if c = ',' then
          match parseElements fuel depth rest1 with
          | none => none
          | some (vs, rest2) => some (v :: vs, rest2)
        else if c = ']' then some ([v], rest1)
        else none
/-- Reads the members of an object up to and including the closing brace. -/
def parseMembers : Nat → Nat → List Char → Option (List (String × JVal) × List Char)
  | 0, _, _ => none
  | fuel + 1, depth, cs =>
    match skipWS cs with
    | [] => none
    | q :: rest =>
      if q = '"' then
        match parseStringBody 0 rest with
        | none => none
        | some (k, rest1) =>
          match skipWS rest1 with
          | [] => none
          | c :: rest2 =>
            if c = ':' then
              match parseValue fuel depth rest2 with
              | none => none
              | some (v, rest3) =>
                match skipWS rest3 with
                | [] => none
                | e :: rest4 =>
                  if e = ',' then
                    match parseMembers fuel depth rest4 with
                    | none => none
                    | some (kvs, rest5) => some ((⟨k⟩, v) :: kvs, rest5)
                  else if e = '\x7d' then some ([(⟨k⟩, v)], rest4)
                  else none
            else none
      else none
end

/-- Go `checkValid` followed by the value scan of `Unmarshal`: the whole input
is one JSON value surrounded by optional whitespace. -/
def parseJSON (data : String) : Option JVal :=
  match parseValue (data.length + 1) 0 data.data with
  | none => none
  | some (v, rest) => if skipWS rest = [] then some v else none

/-! ## `json.Unmarshal`: decoding a JSON value into the Go structs -/

/-- Errors the pipelines return. `wrap msg e` is `fmt.Errorf(msg + ": %w", e)`,
`engine code` an LMDB errno, `os code` the errno of a failed file operation. -/
inductive Error where
  | syntaxError : Error
  | unmarshalType : Error
  | notFound : Error
  | engine : Nat → Error
  | os : Nat → Error
  | wrap : String → Error → Error
  | bodyNotFound : String → Error
  deriving DecidableEq, Repr

/-- Go `foldRune` on the runes that matter for ASCII field names: a lower-case
ASCII letter folds to its capital, U+017F (long s) to `S` and U+212A (Kelvin
sign) to `K`. Every other rune folds to a rune outside ASCII in Go and is left
as it is here, which matches the same field names. -/
def foldChar (c : Char) : Char :=
  if 'a'.toNat ≤ c.toNat ∧ c.toNat ≤ 'z'.toNat then Char.ofNat (c.toNat - 32)
  else if c = '\u017f' then 'S'
  else if c = '\u212a' then 'K'
  else c

/-- Go `foldName`. -/
def foldName (s : String) : List Char :=
  s.data.map foldChar

/-- The index of the struct field an object key selects: the field whose JSON
name is the key exactly, else the first one equal to it under `foldName`. -/
def findField (fields : List String) (key : String) : Option Nat :=
  match fields.indexOf? key with
  | some i => some i
  | none => (fields.map foldName).indexOf? (foldName key)

/-- Decoding into a Go `string`: a JSON string sets it, `null` leaves it. -/
def decodeString (old : String) : JVal → Except Error String
  | JVal.str s => .ok s
  | JVal.null => .ok old
  | _ => .error .unmarshalType

/-- Decoding into a Go `bool`: `true`/`false` set it, `null` leaves it. -/
def decodeBool (old : Bool) : JVal → Except Error Bool
  | JVal.bool b => .ok b
  | JVal.null => .ok old
  | _ => .error .unmarshalType

/-- One member of a JSON object decoded into an `ID`. Unknown keys are skipped. -/
def decodeIDField (old : ID) (kv : String × JVal) : Except Error ID :=
  match findField ["kind", "uuid"] kv.1 with
  | some 0 => (decodeString old.kind kv.2).map fun s => { old with kind := s }
  | some 1 => (decodeString old.uuid kv.2).map fun s => { old with uuid := s }
  | _ => .ok old

/-- Decoding into an `ID` struct. -/
def decodeID (old : ID) : JVal → Except Error ID
  | JVal.obj kvs => kvs.foldlM decodeIDField old
  | JVal.null => .ok old
  | _ => .error .unmarshalType

/-- One member of a JSON object decoded into a `Metadata`. -/
def decodeMetadataField (old : Metadata) (kv : String × JVal) : Except Error Metadata :=
  match findField ["id", "title", "default", "saved_at"] kv.1 with
  | some 0 => (decodeID old.id kv.2).map fun x => { old with id := x }
  | some 1 => (decodeString old.title kv.2).map fun x => { old with title := x }
  | some 2 => (decodeBool old.default kv.2).map fun x => { old with default := x }
  | some 3 => (decodeString old.savedAt kv.2).map fun x => { old with savedAt := x }
  | _ => .ok old

/-- Decoding into a `Metadata` struct. -/
def decodeMetadata (old : Metadata) : JVal → Except Error Metadata
  | JVal.obj kvs => kvs.foldlM decodeMetadataField old
  | JVal.null => .ok old
  | _ => .error .unmarshalType

/-- One member of a JSON object decoded into a `Prompt`. -/
def decodePromptField (old : Prompt) (kv : String × JVal) : Except Error Prompt :=
  match findField ["metadata", "content"] kv.1 with
  | some 0 => (decodeMetadata old.metadata kv.2).map fun x => { old with metadata := x }
  | some 1 => (decodeString old.content kv.2).map fun x => { old with content := x }
  | _ => .ok old

/-- The zero value of `Metadata`. -/
def Metadata.zero : Metadata := ⟨⟨"", ""⟩, "", false, ""⟩

/-- The zero value of `Prompt`. -/
def Prompt.zero : Prompt := ⟨Metadata.zero, ""⟩

/-- Decoding one array element into a `*Prompt`: `null` gives the nil pointer
(`none`), an object a freshly allocated `Prompt` filled from its members. -/
def decodePromptPtr : JVal → Except Error (Option Prompt)
  | JVal.obj kvs => (kvs.foldlM decodePromptField Prompt.zero).map some
  | JVal.null => .ok none
  | _ => .error .unmarshalType

/-- Decoding into the empty slice `db := []*Prompt{}`: an array gives one
pointer per element, a top-level `null` leaves the slice empty. -/
def decodePrompts : JVal → Except Error (List (Option Prompt))
  | JVal.arr xs => xs.mapM decodePromptPtr
  | JVal.null => .ok []
  | _ => .error .unmarshalType

/-- Go `json.Unmarshal(jsonBytes, &db)` with `db := []*Prompt{}`. -/
def unmarshalPrompts (data : String) : Except Error (List (Option Prompt)) :=
  match parseJSON data with
  | none => .error .syntaxError
  | some v => decodePrompts v

/-- Go `json.Unmarshal(value, &metadata)` with `var metadata Metadata`. -/
def unmarshalMetadata (data : String) : Except Error Metadata :=
  match parseJSON data with
  | none => .error .syntaxError
  | some v => decodeMetadata Metadata.zero v

/-! ## `json.MarshalIndent(db, "", "  ")` -/

/-- One element of the indented array: a `Prompt` at nesting depth one. -/
def marshalIndentPrompt (p : Prompt) : List Char :=
  "\x7b\n    \"metadata\": \x7b\n      \"id\": \x7b\n        \"kind\": ".data
    ++ quote p.metadata.id.kind
    ++ ",\n        \"uuid\": ".data ++ quote p.metadata.id.uuid
    ++ "\n      \x7d,\n      \"title\": ".data ++ quote p.metadata.title
    ++ ",\n      \"default\": ".data
    ++ (if p.metadata.default then "true".data else "false".data)
    ++ ",\n      \"saved_at\": ".data ++ quote p.metadata.savedAt
    ++ "\n    \x7d,\n    \"content\": ".data ++ quote p.content
    ++ "\n  \x7d".data

/-- The elements of a non-empty indented array, each on its own lines. -/
def marshalIndentElems : List Prompt → List Char
  | [] => []
  | [p] => "\n  ".data ++ marshalIndentPrompt p ++ "\n".data
  | p :: q :: ps => "\n  ".data ++ marshalIndentPrompt p ++ [','] ++ marshalIndentElems (q :: ps)

/-- Go `json.MarshalIndent(db, "", "  ")` for `db []*Prompt` without nil
elements: `[]` for the empty slice, else one indented object per element. -/
def marshalIndent (db : List Prompt) : String :=
  match db with
  | [] => "[]"
  | _ :: _ => ⟨['['] ++ marshalIndentElems db ++ [']']⟩

/-! ## The LMDB environment -/

/-- LMDB default key order, `memcmp` then length, on the characters of the keys
(code point order and UTF-8 byte order agree). -/
def bytesLess : List Char → List Char → Bool
  | [], [] => false
  | [], _ :: _ => true
  | _ :: _, [] => false
  | a :: as, b :: bs =>
    if a.toNat < b.toNat then true
    else if b.toNat < a.toNat then false
    else bytesLess as bs

/-- A named database: its records in cursor order. -/
abbrev Table := List (String × String)

/-- LMDB `mdb_get`: the value stored under `key`, if any. -/
def Table.get : Table → String → Option String
  | [], _ => none
  | (k, v) :: t, key => if k = key then some v else Table.get t key

/-- LMDB `mdb_put` with flags 0: overwrites the record of `key`, or inserts a
new record at its place in key order. -/
def Table.put : Table → String → String → Table
  | [], key, value => [(key, value)]
  | (k, v) :: t, key, value =>
    if bytesLess key.data k.data then (key, value) :: (k, v) :: t
    else if key = k then (key, value) :: t
    else (k, v) :: Table.put t key value

/-- Records are in strictly increasing key order, as LMDB keeps them. -/
def Table.Sorted (t : Table) : Prop :=
  t.Pairwise fun a b => bytesLess a.1.data b.1.data = true

/-- The contents of the environment: the two named databases the program
uses (`SetMaxDBs(2)`), each absent until first created. -/
structure Env where
  metadata : Option Table
  bodies : Option Table
  deriving DecidableEq, Repr

/-- A database handle. -/
inductive DBI where
  | metadata : DBI
  | bodies : DBI
  deriving DecidableEq, Repr

/-- The handle a database name stands for. -/
def dbiOf (name : String) : Option DBI :=
  if name = "metadata.v2" then some DBI.metadata
  else if name = "bodies.v2" then some DBI.bodies
  else none

/-- The table behind a handle. -/
def Env.table (env : Env) : DBI → Option Table
  | DBI.metadata => env.metadata
  | DBI.bodies => env.bodies

/-- Replaces the table behind a handle. -/
def Env.setTable (env : Env) (d : DBI) (t : Table) : Env :=
  match d with
  | DBI.metadata => { env with metadata := some t }
  | DBI.bodies => { env with bodies := some t }

/-- What lies outside the program in a write: whether the engine refuses a
put (key longer than its maximum, map full, ...), given the database name,
the table as it stands, the key and the value. `some code` is the errno. -/
structure Engine where
  putError : String → Table → String → String → Option Nat

/-- A transaction: its working copy of the environment and the puts made so
far, as `(database, key, value)`. -/
structure Txn where
  dbs : Env
  puts : List (String × String × String)
  deriving DecidableEq, Repr

/-- LMDB `txn.OpenDBI(name, flags)`: `create` is the flag `lmdb.Create`. A
database that does not exist is created with the flag and is `MDB_NOTFOUND`
without it. The program names no database besides the two. -/
def Txn.openDBI (txn : Txn) (name : String) (create : Bool) : Except Error (Txn × DBI) :=
  match dbiOf name with
  | none => .error .notFound
  | some d =>
    match txn.dbs.table d with
    | some _ => .ok (txn, d)
    | none =>
      if create then .ok ({ txn with dbs := txn.dbs.setTable d [] }, d)
      else .error .notFound

/-- LMDB `txn.Get(dbi, key)`; `none` is `MDB_NOTFOUND`. -/
def Txn.get (txn : Txn) (d : DBI) (key : String) : Option String :=
  match txn.dbs.table d with
  | none => none
  | some t => t.get key

/-- LMDB `txn.Put(dbi, key, value, 0)`. -/
def Txn.put (eng : Engine) (txn : Txn) (name : String) (d : DBI) (key value : String) :
    Except Error Txn :=
  let t := (txn.dbs.table d).getD []
  match eng.putError name t key value with
  | some code => .error (.engine code)
  | none => .ok { dbs := txn.dbs.setTable d (t.put key value),
                  puts := txn.puts ++ [(name, key, value)] }

/-- What a Go function of result type `error` does: returns nil, returns an
error, or panics. -/
inductive Outcome where
  | nil : Outcome
  | err : Error → Outcome
  | panic : Outcome
  deriving DecidableEq, Repr

/-- LMDB `env.View(fn)`: runs `fn` in a read-only transaction. -/
def Env.view {α : Type} (env : Env) (fn : Txn → α) : α :=
  fn ⟨env, []⟩

/-- LMDB `env.Update(fn)`: runs `fn` in a write transaction on a working copy,
which is committed when `fn` returns nil and thrown away otherwise. -/
def Env.update (env : Env) (fn : Txn → Txn × Outcome) : Env × Outcome :=
  match fn ⟨env, []⟩ with
  | (txn, Outcome.nil) => (txn.dbs, Outcome.nil)
  | (_, r) => (env, r)

/-! ## The pipelines (`prompts.go`) -/

/-- Go `getBody(txn, uuid)`, lines 80-107. -/
def getBody (txn : Txn) (uuid : String) : Except Error String :=
  match txn.openDBI "bodies.v2" false with
  | .error e => .error (.wrap "error opening bodies database" e)
  | .ok (txn1, dbi) =>
    let keyJSON := marshalID { kind := "User", uuid := uuid }
    match txn1.get dbi keyJSON with
    | none => .error (.bodyNotFound uuid)
    | some val => .ok val

/-- The cursor loop of `getAllMetadata`, lines 170-185: decodes the value of
every record, in cursor order. -/
def getAllMetadataLoop : Table → List Metadata → Except Error (List Metadata)
  | [], metadatas => .ok metadatas
  | (_, value) :: cursor, metadatas =>
    match unmarshalMetadata value with
    | .error e => .error (.wrap "unmarshaling metadata" e)
    | .ok metadata => getAllMetadataLoop cursor (metadatas ++ [metadata])

/-- Go `getAllMetadata(txn)`, lines 157-188. -/
def getAllMetadata (txn : Txn) : Except Error (List Metadata) :=
  match txn.openDBI "metadata.v2" false with
  | .error e => .error (.wrap "opening database" e)
  | .ok (txn1, dbi) => getAllMetadataLoop ((txn1.dbs.table dbi).getD []) []

/-- The loop of `export`, lines 127-141: one `View` and one `getBody` per
metadata record. -/
def exportLoop (env : Env) : List Metadata → List Prompt → Except Error (List Prompt)
  | [], db => .ok db
  | m :: metadata, db =>
    match env.view fun txn => getBody txn m.id.uuid with
    | .error e => .error e
    | .ok body => exportLoop env metadata (db ++ [{ metadata := m, content := body }])

/-- Lines 116-141 of `export`: the document collection `db` that is marshalled. -/
def exportDocs (env : Env) : Except Error (List Prompt) :=
  match env.view getAllMetadata with
  | .error e => .error e
  | .ok metadata => exportLoop env metadata []

/-- Where `export` sends the bytes. -/
inductive Output where
  | stdout : String → Output
  | file : String → String → Output
  deriving DecidableEq, Repr

/-- What lies outside the program in `os.WriteFile(name, data, 0644)`: whether
writing fails (no such directory, empty name, no permission, ...). `some code`
is the errno. -/
structure FileSystem where
  writeError : String → String → Option Nat

/-- Go `export(dbPath, output)`, lines 109-155 (`export` is a reserved word
here), on the environment `openDB` returned: the text printed (`fmt.Println`),
or the file written, or the error of `os.WriteFile`. -/
def exportJSON (fs : FileSystem) (env : Env) (output : String) : Except Error Output :=
  match exportDocs env with
  | .error e => .error e
  | .ok db =>
    let jsonBytes := marshalIndent db
    if output = "-" then .ok (Output.stdout (jsonBytes ++ "\n"))
    else
      match fs.writeError output jsonBytes with
      | some code => .error (.os code)
      | none => .ok (Output.file output jsonBytes)

/-- Go `put(txn, database, key, value)`, lines 223-234. -/
def put (eng : Engine) (txn : Txn) (database key value : String) : Txn × Option Error :=
  match txn.openDBI database true with
  | .error e => (txn, some (.wrap "opening database" e))
  | .ok (txn1, dbi) =>
    match Txn.put eng txn1 database dbi key value with
    | .error e => (txn1, some (.wrap "writing metadata" e))
    | .ok txn2 => (txn2, none)

/-- The cursor loop of `listMetadata`, lines 264-275: prints every key. -/
def listMetadataLoop : Table → List String → List String
  | [], out => out
  | (key, _) :: cursor, out => listMetadataLoop cursor (out ++ [key])

/-- The function `listMetadata` passes to `View`, lines 252-277: the lines
printed and the error returned. -/
def listMetadataView (txn : Txn) : List String × Option Error :=
  match txn.openDBI "metadata.v2" false with
  | .error e => ([], some (.wrap "opening database" e))
  | .ok (txn1, dbi) => (listMetadataLoop ((txn1.dbs.table dbi).getD []) [], none)

/-- Go `listMetadata()`, lines 245-280, on the environment `openDB` returned:
the lines printed and the result. The error of `View` is assigned to `err`
and the function ends in `return nil`. -/
def listMetadata (env : Env) : List String × Option Error :=
  let (out, _err) := env.view listMetadataView
  (out, none)

/-- The function `importJSON` passes to `Update`, lines 308-330. -/
def importLoop (eng : Engine) : List (Option Prompt) → Txn → Txn × Outcome
  | [], txn => (txn, Outcome.nil)
  | none :: _, txn => (txn, Outcome.panic)
  | some prompt :: db, txn =>
    let mjson := marshalMetadata prompt.metadata
    let idjson := marshalID prompt.metadata.id
    match put eng txn "metadata.v2" idjson mjson with
    | (txn1, some e) => (txn1, Outcome.err e)
    | (txn1, none) =>
      match put eng txn1 "bodies.v2" idjson prompt.content with
      | (txn2, some e) => (txn2, Outcome.err e)
      | (txn2, none) => importLoop eng db txn2

/-- Go `importJSON(input, dbPath)`, lines 282-333, on the environment `openDB`
returned and the bytes read from the input: the environment afterwards and
the result. -/
def importJSON (eng : Engine) (jsonBytes : String) (env : Env) : Env × Outcome :=
  match unmarshalPrompts jsonBytes with
  | .error e => (env, Outcome.err e)
  | .ok db => env.update (importLoop eng db)

/-! ## Vocabulary for stating the properties -/

/-- The value stored under `key` in a database of the environment; `none` when
the database is absent or has no such record. -/
def Env.lookup (env : Env) (d : DBI) (key : String) : Option String :=
  match env.table d with
  | none => none
  | some t => t.get key

/-- The two puts `importJSON` makes for one document, as `(database, key, value)`. -/
def docPuts (d : Prompt) : List (String × String × String) :=
  [("metadata.v2", marshalID d.metadata.id, marshalMetadata d.metadata),
   ("bodies.v2", marshalID d.metadata.id, d.content)]

/-- The environment after the two puts of one document have gone through. -/
def Env.putDoc (env : Env) (d : Prompt) : Env :=
  { metadata := some ((env.metadata.getD []).put (marshalID d.metadata.id)
      (marshalMetadata d.metadata)),
    bodies := some ((env.bodies.getD []).put (marshalID d.metadata.id) d.content) }

/-- The engine refuses neither put of the document, whatever the table holds. -/
def Engine.Accepts (eng : Engine) (d : Prompt) : Prop :=
  ∀ t : Table,
    eng.putError "metadata.v2" t (marshalID d.metadata.id) (marshalMetadata d.metadata) = none ∧
    eng.putError "bodies.v2" t (marshalID d.metadata.id) d.content = none

/-- An engine that refuses no put. -/
def Engine.acceptAll : Engine :=
  ⟨fun _ _ _ _ => none⟩

/-- A file system in which a file can be written unless its name is empty or
lies in the directory `nodir`, which does not exist (errno 2, `ENOENT`). -/
def FileSystem.noDir : FileSystem :=
  ⟨fun name _ => if name = "" ∨ name = "nodir/out.json" then some 2 else none⟩

/-- The shape of `escapeChar c` that the string scanner undoes, as a check
that can be evaluated. -/
def escapeOK (c : Char) : Bool :=
  match escapeChar c with
  | [x] => x = c && c != '"' && c != '\\' && decide (0x20 ≤ c.toNat)
  | [b, e] => b = '\\' && unescape [e] = some (c, 1)
  | [b, u, h1, h2, h3, h4] =>
    b = '\\' && u = 'u' && hex4 h1 h2 h3 h4 = some c.toNat && !isSurrogate c.toNat
  | _ => false

/-- The JSON value `json.Marshal` writes for an `ID`. -/
def ID.toJVal (id : ID) : JVal :=
  JVal.obj [("kind", JVal.str id.kind), ("uuid", JVal.str id.uuid)]

/-- The JSON value `json.Marshal` writes for a `Metadata`. -/
def Metadata.toJVal (m : Metadata) : JVal :=
  JVal.obj [("id", m.id.toJVal), ("title", JVal.str m.title),
    ("default", JVal.bool m.default), ("saved_at", JVal.str m.savedAt)]

/-! ## Concrete stores and snapshots used as witnesses -/

deriving instance DecidableEq for Except

/-- A store whose two metadata records sit under storage keys unrelated to
their values, one of them of kind `"Default"`; the bodies are under the
`"User"` keys of the uuids. -/
def joinStore : Env :=
  ⟨some [("k1", marshalMetadata ⟨⟨"Default", "b"⟩, "T", true, ""⟩),
         ("k2", marshalMetadata ⟨⟨"User", "a"⟩, "", false, "now"⟩)],
   some [(marshalID ⟨"User", "a"⟩, "A"), (marshalID ⟨"User", "b"⟩, "B")]⟩

/-- The documents `export` yields on `joinStore`. -/
def joinDocs : List Prompt :=
  [⟨⟨⟨"Default", "b"⟩, "T", true, ""⟩, "B"⟩, ⟨⟨⟨"User", "a"⟩, "", false, "now"⟩, "A"⟩]

/-- An engine with a maximum key size, in the manner of LMDB's: a put whose
key is longer than `n` is refused. -/
def Engine.keyLimit (n : Nat) : Engine :=
  ⟨fun _ _ key _ => if key.length > n then some 1 else none⟩

/-- A snapshot of two documents; the key of the last one is 39 characters long. -/
def twoDocs : String :=
  "[\x7b\"metadata\":\x7b\"id\":\x7b\"kind\":\"User\",\"uuid\":\"a\"\x7d,\"title\":\"Greeting\",\"default\":false,\"saved_at\":\"2025-01-01T00:00:00Z\"\x7d,\"content\":\"Hello\"\x7d,\n \x7b\"metadata\":\x7b\"id\":\x7b\"kind\":\"User\",\"uuid\":\"long-uuid-0001\"\x7d,\"title\":\"\",\"default\":true,\"saved_at\":\"\"\x7d,\"content\":\"\"\x7d]"

/-- The documents of `twoDocs`. -/
def twoDocsList : List Prompt :=
  [⟨⟨⟨"User", "a"⟩, "Greeting", false, "2025-01-01T00:00:00Z"⟩, "Hello"⟩,
   ⟨⟨⟨"User", "long-uuid-0001"⟩, "", true, ""⟩, ""⟩]

/-- The store `joinStore` after `twoDocs` has been imported into it. -/
def joinStoreAfter : Env :=
  ⟨some [("k1", marshalMetadata ⟨⟨"Default", "b"⟩, "T", true, ""⟩),
         ("k2", marshalMetadata ⟨⟨"User", "a"⟩, "", false, "now"⟩),
         (marshalID ⟨"User", "a"⟩,
           marshalMetadata ⟨⟨"User", "a"⟩, "Greeting", false, "2025-01-01T00:00:00Z"⟩),
         (marshalID ⟨"User", "long-uuid-0001"⟩,
           marshalMetadata ⟨⟨"User", "long-uuid-0001"⟩, "", true, ""⟩)],
   some [(marshalID ⟨"User", "a"⟩, "Hello"), (marshalID ⟨"User", "b"⟩, "B"),
         (marshalID ⟨"User", "long-uuid-0001"⟩, "")]⟩

/-- The environment of a freshly created store: neither database exists. -/
def freshStore : Env :=
  ⟨none, none⟩

/-- A snapshot whose only document has neither `metadata.id.uuid` nor `content`. -/
def lackingDoc : String :=
  "[\x7b\"metadata\":\x7b\"id\":\x7b\"kind\":\"User\"\x7d,\"title\":\"T\"\x7d\x7d]"

/-- A store in which the record of uuid `a` has no body, and a later record
holds a value that is not JSON. -/
def orphanStore : Env :=
  ⟨some [("k1", marshalMetadata ⟨⟨"User", "a"⟩, "T", false, ""⟩), ("k2", "not json")],
   some [(marshalID ⟨"User", "b"⟩, "B")]⟩

/-- A metadata table of two records whose values decode. -/
def orphanTable : Table :=
  [("k1", marshalMetadata ⟨⟨"User", "b"⟩, "", false, ""⟩),
   ("k2", marshalMetadata ⟨⟨"User", "a"⟩, "T", false, ""⟩)]

/-- A store in which every metadata value decodes, the record of uuid `b`
has its body and the record of uuid `a` has none. -/
def orphanStore2 : Env :=
  ⟨some orphanTable, some [(marshalID ⟨"User", "b"⟩, "B")]⟩

/-- A snapshot whose only document has the kind `"Default"`. -/
def defaultKindDoc : String :=
  "[\x7b\"metadata\":\x7b\"id\":\x7b\"kind\":\"Default\",\"uuid\":\"abc\"\x7d,\"title\":\"Greeting\",\"default\":true,\"saved_at\":\"2025-01-01T00:00:00Z\"\x7d,\"content\":\"Hello\"\x7d]"

/-! # Theorems -/

/-! ## String literals: `parseStringBody` undoes `escapeChars` -/

theorem escapeOK_ascii : ∀ n : Nat, n < 128 → escapeOK (Char.ofNat n) = true := by
  decide

theorem escapeOK_all (c : Char) : escapeOK c = true := by
  by_cases h : c.toNat < 128
  · have := escapeOK_ascii c.toNat h
    simpa using this
  · by_cases h2 : c = ' '
    · subst h2; decide
    by_cases h3 : c = ' '
    · subst h3; decide
    have hq : c ≠ '"' := by rintro rfl; exact h (by decide)
    have hb : c ≠ '\\' := by rintro rfl; exact h (by decide)
    have e : escapeChar c = [c] := by
      simp [escapeChar, h, h2, h3]
    simp only [escapeOK, e]
    simp [hq, hb]
    omega

theorem unescape_simple (e c : Char) (tail : List Char) (h : unescape [e] = some (c, 1)) :
    unescape (e :: tail) = some (c, 1) := by
  unfold unescape at h ⊢
  by_cases hu : e = 'u'
  · simp [hu, hex4At] at h
  · simpa [hu] using h

theorem parseStringBody_escapeChar (c : Char) (tail : List Char) :
    parseStringBody 0 (escapeChar c ++ tail) = consChar c (parseStringBody 0 tail) := by
  have h := escapeOK_all c
  unfold escapeOK at h
  split at h
  · next x hx =>
    simp only [Bool.and_eq_true, decide_eq_true_eq, bne_iff_ne, ne_eq] at h
    obtain ⟨⟨⟨rfl, hq⟩, hb⟩, hge⟩ := h
    rw [hx]
    simp [parseStringBody, hq, hb, Nat.not_lt.mpr hge]
  · next b e hx =>
    simp only [Bool.and_eq_true, decide_eq_true_eq] at h
    obtain ⟨rfl, hs⟩ := h
    rw [hx]
    simp [parseStringBody, unescape_simple e c tail hs]
  · next b u h1 h2 h3 h4 hx =>
    simp only [Bool.and_eq_true, decide_eq_true_eq, Bool.not_eq_true'] at h
    obtain ⟨⟨⟨rfl, rfl⟩, hh⟩, hs⟩ := h
    rw [hx]
    simp [parseStringBody, unescape, hex4At, hh, hs]
  · exact absurd h (by simp)

theorem parseStringBody_escapeChars (s rest : List Char) :
    parseStringBody 0 (escapeChars s ++ '"' :: rest) = some (s, rest) := by
  induction s with
  | nil => simp [escapeChars, parseStringBody]
  | cons c cs ih =>
    simp only [escapeChars, List.append_assoc]
    rw [parseStringBody_escapeChar, ih]
    rfl

theorem quote_append_inj {a b : String} {r1 r2 : List Char}
    (h : quote a ++ r1 = quote b ++ r2) : a = b ∧ r1 = r2 := by
  simp only [quote, List.cons_append, List.append_assoc, List.singleton_append,
    List.cons.injEq, true_and, List.nil_append] at h
  have h1 := parseStringBody_escapeChars a.data r1
  rw [h, parseStringBody_escapeChars] at h1
  simp only [Option.some.injEq, Prod.mk.injEq] at h1
  exact ⟨String.ext h1.1.symm, h1.2.symm⟩

theorem marshalIDChars_append_inj {a b : ID} {r1 r2 : List Char}
    (h : marshalIDChars a ++ r1 = marshalIDChars b ++ r2) : a = b ∧ r1 = r2 := by
  simp only [marshalIDChars, List.append_assoc] at h
  have h1 := quote_append_inj (List.append_cancel_left h)
  have h2 := quote_append_inj (List.append_cancel_left h1.2)
  obtain ⟨k1, u1⟩ := a
  obtain ⟨k2, u2⟩ := b
  simp only at h1 h2
  simp only [List.singleton_append, List.cons.injEq, true_and] at h2
  exact ⟨by rw [h1.1, h2.1], h2.2⟩

theorem marshalID_injective {a b : ID} (h : marshalID a = marshalID b) : a = b := by
  have h1 : marshalIDChars a ++ [] = marshalIDChars b ++ [] := by
    have h0 := congrArg String.data h
    simpa [marshalID] using h0
  exact (marshalIDChars_append_inj h1).1

/-- C7. The store key `json.Marshal(id)` is canonical and unique: it is the
fixed text with `kind` before `uuid`, and two identities have the same key
exactly when they have the same kind and the same uuid. -/
theorem marshalID_eq_iff (a b : ID) :
    (marshalID a = marshalID b ↔ a.kind = b.kind ∧ a.uuid = b.uuid) ∧
    marshalID a = ⟨"\x7b\"kind\":".data ++ quote a.kind ++ ",\"uuid\":".data ++ quote a.uuid
      ++ "\x7d".data⟩ := by
  refine ⟨⟨fun h => ?_, fun h => ?_⟩, rfl⟩
  · have h2 := marshalID_injective h
    exact ⟨by rw [h2], by rw [h2]⟩
  · obtain ⟨k1, u1⟩ := a
    obtain ⟨k2, u2⟩ := b
    simp only at h
    rw [h.1, h.2]

theorem skipWS_quote (cs : List Char) : skipWS ('"' :: cs) = '"' :: cs := by
  simp [skipWS, isSpace]

theorem parseValue_str (f d : Nat) (s : String) (rest : List Char) :
    parseValue (f + 1) d (quote s ++ rest) = some (JVal.str s, rest) := by
  simp only [quote, List.cons_append, List.append_assoc, List.singleton_append, List.nil_append]
  rw [parseValue, skipWS_quote]
  simp [parseStringBody_escapeChars]

theorem parseValue_true (f d : Nat) (rest : List Char) :
    parseValue (f + 1) d ("true".data ++ rest) = some (JVal.bool true, rest) := by
  rw [parseValue]
  simp [skipWS, isSpace, stripLit]

theorem parseValue_false (f d : Nat) (rest : List Char) :
    parseValue (f + 1) d ("false".data ++ rest) = some (JVal.bool false, rest) := by
  rw [parseValue]
  simp [skipWS, isSpace, stripLit]

theorem parseMembers_cons (f d : Nat) (k : String) (cs more rest : List Char) (v : JVal)
    (kvs : List (String × JVal))
    (hv : parseValue f d cs = some (v, ',' :: more))
    (hm : parseMembers f d more = some (kvs, rest)) :
    parseMembers (f + 1) d (quote k ++ ':' :: cs) = some ((k, v) :: kvs, rest) := by
  simp only [quote, List.cons_append, List.append_assoc, List.singleton_append, List.nil_append]
  rw [parseMembers, skipWS_quote]
  simp [parseStringBody_escapeChars, skipWS, isSpace, hv, hm]

theorem parseMembers_last (f d : Nat) (k : String) (cs rest : List Char) (v : JVal)
    (hv : parseValue f d cs = some (v, '\x7d' :: rest)) :
    parseMembers (f + 1) d (quote k ++ ':' :: cs) = some ([(k, v)], rest) := by
  simp only [quote, List.cons_append, List.append_assoc, List.singleton_append, List.nil_append]
  rw [parseMembers, skipWS_quote]
  simp [parseStringBody_escapeChars, skipWS, isSpace, hv]

theorem parseValue_obj (f d : Nat) (cs rest : List Char) (kvs : List (String × JVal))
    (hd : d + 1 ≤ maxNestingDepth)
    (hm : parseMembers f (d + 1) ('"' :: cs) = some (kvs, rest)) :
    parseValue (f + 1) d ('\x7b' :: '"' :: cs) = some (JVal.obj kvs, rest) := by
  rw [parseValue]
  simp [skipWS, isSpace, hm, Nat.not_lt.mpr hd]

theorem marshalIDChars_eq (id : ID) (rest : List Char) :
    marshalIDChars id ++ rest =
      '\x7b' :: (quote "kind" ++ ':' :: (quote id.kind ++ ',' ::
        (quote "uuid" ++ ':' :: (quote id.uuid ++ '\x7d' :: rest)))) := by
  simp [marshalIDChars, quote, escapeChars, escapeChar, htmlSafe]

theorem parseValue_marshalID (f d : Nat) (id : ID) (rest : List Char)
    (hd : d + 1 ≤ maxNestingDepth) :
    parseValue (f + 4) d (marshalIDChars id ++ rest) = some (id.toJVal, rest) := by
  rw [marshalIDChars_eq]
  have h1 : quote "kind" ++ ':' :: (quote id.kind ++ ',' ::
        (quote "uuid" ++ ':' :: (quote id.uuid ++ '\x7d' :: rest)))
      = '"' :: (escapeChars "kind".data ++ '"' :: ':' :: (quote id.kind ++ ',' ::
        (quote "uuid" ++ ':' :: (quote id.uuid ++ '\x7d' :: rest)))) := by
    simp [quote]
  rw [h1]
  apply parseValue_obj _ _ _ _ _ hd
  rw [← h1]
  apply parseMembers_cons (f + 2) (d + 1) "kind" _ _ _ _ _ (parseValue_str _ _ _ _)
  exact parseMembers_last (f + 1) (d + 1) "uuid" _ _ _ (parseValue_str _ _ _ _)

theorem marshalMetadataChars_eq (m : Metadata) (rest : List Char) :
    marshalMetadataChars m ++ rest =
      '\x7b' :: (quote "id" ++ ':' :: (marshalIDChars m.id ++ ',' ::
        (quote "title" ++ ':' :: (quote m.title ++ ',' ::
        (quote "default" ++ ':' :: ((if m.default then "true".data else "false".data) ++ ',' ::
        (quote "saved_at" ++ ':' :: (quote m.savedAt ++ '\x7d' :: rest)))))))) := by
  simp [marshalMetadataChars, quote, escapeChars, escapeChar, htmlSafe]

theorem parseValue_marshalMetadata (f d : Nat) (m : Metadata) (rest : List Char)
    (hd : d + 2 ≤ maxNestingDepth) :
    parseValue (f + 6) d (marshalMetadataChars m ++ rest) = some (m.toJVal, rest) := by
  rw [marshalMetadataChars_eq]
  have h1 : ∀ t : List Char, quote "id" ++ t = '"' :: (escapeChars "id".data ++ '"' :: t) := by
    intro t; simp [quote]
  rw [h1]
  apply parseValue_obj _ _ _ _ _ (by omega)
  rw [← h1]
  apply parseMembers_cons (f + 4) (d + 1) "id" _ _ _ _ _
    (parseValue_marshalID f (d + 1) m.id _ (by omega))
  apply parseMembers_cons (f + 3) (d + 1) "title" _ _ _ _ _ (parseValue_str _ _ _ _)
  have hb : parseValue (f + 2) (d + 1)
      ((if m.default then "true".data else "false".data) ++ ',' ::
        (quote "saved_at" ++ ':' :: (quote m.savedAt ++ '\x7d' :: rest)))
      = some (JVal.bool m.default, ',' ::
        (quote "saved_at" ++ ':' :: (quote m.savedAt ++ '\x7d' :: rest))) := by
    cases m.default
    · exact parseValue_false _ _ _
    · exact parseValue_true _ _ _
  apply parseMembers_cons (f + 2) (d + 1) "default" _ _ _ _ _ hb
  exact parseMembers_last (f + 1) (d + 1) "saved_at" _ _ _ (parseValue_str _ _ _ _)

theorem decodeID_toJVal (old id : ID) : decodeID old id.toJVal = .ok id := by
  have h0 : findField ["kind", "uuid"] "kind" = some 0 := by decide
  have h1 : findField ["kind", "uuid"] "uuid" = some 1 := by decide
  simp [ID.toJVal, decodeID, List.foldlM, decodeIDField, h0, h1, decodeString, Except.map,
    bind, Except.bind]
  rfl

theorem decodeMetadata_toJVal (old m : Metadata) : decodeMetadata old m.toJVal = .ok m := by
  have h0 : findField ["id", "title", "default", "saved_at"] "id" = some 0 := by decide
  have h1 : findField ["id", "title", "default", "saved_at"] "title" = some 1 := by decide
  have h2 : findField ["id", "title", "default", "saved_at"] "default" = some 2 := by decide
  have h3 : findField ["id", "title", "default", "saved_at"] "saved_at" = some 3 := by decide
  simp [Metadata.toJVal, decodeMetadata, List.foldlM, decodeMetadataField, h0, h1, h2, h3,
    decodeString, decodeBool, decodeID_toJVal, Except.map, bind, Except.bind]
  rfl

theorem marshalMetadataChars_length (m : Metadata) : 5 ≤ (marshalMetadataChars m).length := by
  simp [marshalMetadataChars]

/-- Decoding the stored metadata value gives back the record that was encoded. -/
theorem unmarshalMetadata_marshalMetadata (m : Metadata) :
    unmarshalMetadata (marshalMetadata m) = .ok m := by
  unfold unmarshalMetadata parseJSON
  have hl := marshalMetadataChars_length m
  have hf : (marshalMetadata m).length + 1 = ((marshalMetadataChars m).length - 5) + 6 := by
    simp only [marshalMetadata, String.length]
    omega
  have hp := parseValue_marshalMetadata ((marshalMetadataChars m).length - 5) 0 m []
    (by decide)
  rw [hf]
  simp only [marshalMetadata]
  rw [List.append_nil] at hp
  rw [hp]
  simp [skipWS, decodeMetadata_toJVal]

/-! ## Key order and tables -/

theorem bytesLess_irrefl (a : List Char) : bytesLess a a = false := by
  induction a with
  | nil => rfl
  | cons c cs ih => simp [bytesLess, ih]

theorem bytesLess_asymm {a b : List Char} (h : bytesLess a b = true) : bytesLess b a = false := by
  induction a generalizing b with
  | nil => cases b <;> simp [bytesLess] at h ⊢
  | cons c cs ih =>
    cases b with
    | nil => simp [bytesLess] at h
    | cons d ds =>
      simp only [bytesLess] at h ⊢
      by_cases h1 : c.toNat < d.toNat
      · have h2 : ¬ d.toNat < c.toNat := by omega
        simp [h1, h2]
      · by_cases h2 : d.toNat < c.toNat
        · simp [h1, h2] at h
        · simp only [h1, h2, if_false] at h ⊢
          exact ih h

theorem bytesLess_trans {a b c : List Char} (h1 : bytesLess a b = true)
    (h2 : bytesLess b c = true) : bytesLess a c = true := by
  induction a generalizing b c with
  | nil =>
    cases b with
    | nil => simp [bytesLess] at h1
    | cons y ys =>
      cases c with
      | nil => simp [bytesLess] at h2
      | cons z zs => simp [bytesLess]
  | cons x xs ih =>
    cases b with
    | nil => simp [bytesLess] at h1
    | cons y ys =>
      cases c with
      | nil => simp [bytesLess] at h2
      | cons z zs =>
        simp only [bytesLess] at h1 h2 ⊢
        by_cases hxy : x.toNat < y.toNat
        · by_cases hyz : y.toNat < z.toNat
          · have : x.toNat < z.toNat := by omega
            simp [this]
          · by_cases hzy : z.toNat < y.toNat
            · simp [hyz, hzy] at h2
            · have : x.toNat < z.toNat := by omega
              simp [this]
        · by_cases hyx : y.toNat < x.toNat
          · simp [hxy, hyx] at h1
          · simp only [hxy, hyx, if_false] at h1
            by_cases hyz : y.toNat < z.toNat
            · have : x.toNat < z.toNat := by omega
              simp [this]
            · by_cases hzy : z.toNat < y.toNat
              · simp [hyz, hzy] at h2
              · simp only [hyz, hzy, if_false] at h2
                have e1 : ¬ x.toNat < z.toNat := by omega
                have e2 : ¬ z.toNat < x.toNat := by omega
                simp only [e1, e2, if_false]
                exact ih h1 h2

theorem char_eq_of_toNat_eq {c d : Char} (h : c.toNat = d.toNat) : c = d := by
  apply Char.ext
  apply UInt32.ext
  simpa [Char.toNat, UInt32.toNat] using h

theorem bytesLess_total {a b : List Char} (h1 : bytesLess a b = false)
    (h2 : bytesLess b a = false) : a = b := by
  induction a generalizing b with
  | nil => cases b <;> simp [bytesLess] at h1 ⊢
  | cons c cs ih =>
    cases b with
    | nil => simp [bytesLess] at h2
    | cons d ds =>
      simp only [bytesLess] at h1 h2
      by_cases hcd : c.toNat < d.toNat
      · simp [hcd] at h1
      · by_cases hdc : d.toNat < c.toNat
        · simp [hdc] at h2
        · simp only [hcd, hdc, if_false] at h1 h2
          have e : c = d := char_eq_of_toNat_eq (by omega)
          rw [e, ih h1 h2]

theorem keyLess_total {a b : String} (h1 : bytesLess a.data b.data = false)
    (h2 : bytesLess b.data a.data = false) : a = b :=
  String.ext (bytesLess_total h1 h2)

theorem Table.get_put_self (t : Table) (k v : String) : (t.put k v).get k = some v := by
  induction t with
  | nil => simp [Table.put, Table.get]
  | cons kv t ih =>
    obtain ⟨k1, v1⟩ := kv
    simp only [Table.put]
    by_cases h1 : bytesLess k.data k1.data = true
    · simp [h1, Table.get]
    · by_cases h2 : k = k1
      · subst h2
        simp [h1, Table.get]
      · have h3 : ¬ k1 = k := fun e => h2 e.symm
        simp [h1, h2, h3, Table.get, ih]

theorem Table.get_put_of_ne (t : Table) (k v k2 : String) (h : k2 ≠ k) :
    (t.put k v).get k2 = t.get k2 := by
  have h' : ¬ k = k2 := fun e => h e.symm
  induction t with
  | nil => simp [Table.put, Table.get, h']
  | cons kv t ih =>
    obtain ⟨k1, v1⟩ := kv
    simp only [Table.put]
    by_cases h1 : bytesLess k.data k1.data = true
    · simp [h1, Table.get, h']
    · by_cases h2 : k = k1
      · subst h2
        simp [h1, Table.get, h']
      · simp [h1, h2, Table.get, ih]

theorem Table.put_put_same (t : Table) (k v w : String) :
    (t.put k v).put k w = t.put k w := by
  induction t with
  | nil => simp [Table.put, bytesLess_irrefl]
  | cons kv t ih =>
    obtain ⟨k1, v1⟩ := kv
    by_cases h1 : bytesLess k.data k1.data = true
    · simp [Table.put, h1, bytesLess_irrefl]
    · by_cases h2 : k = k1
      · simp [Table.put, h1, h2, bytesLess_irrefl]
      · simp [Table.put, h1, h2, ih]

theorem Table.put_comm (t : Table) (k v k2 v2 : String) (h : k ≠ k2) :
    (t.put k v).put k2 v2 = (t.put k2 v2).put k v := by
  have h' : ¬ k2 = k := fun e => h e.symm
  induction t with
  | nil =>
    by_cases h1 : bytesLess k.data k2.data = true
    · simp [Table.put, h1, bytesLess_asymm h1, h, h']
    · by_cases h2 : bytesLess k2.data k.data = true
      · simp [Table.put, h1, h2, h, h']
      · exact absurd (keyLess_total (by simpa using h1) (by simpa using h2)) h
  | cons kv t ih =>
    obtain ⟨k1, v1⟩ := kv
    by_cases a1 : bytesLess k.data k1.data = true
    · by_cases b1 : bytesLess k2.data k1.data = true
      · by_cases c1 : bytesLess k.data k2.data = true
        · simp [Table.put, a1, b1, c1, bytesLess_asymm c1, h, h']
        · by_cases c2 : bytesLess k2.data k.data = true
          · simp [Table.put, a1, b1, c1, c2, h, h']
          · exact absurd (keyLess_total (by simpa using c1) (by simpa using c2)) h
      · have c1 : bytesLess k2.data k.data = false := by
          by_contra hc
          exact b1 (bytesLess_trans (by simpa using hc) a1)
        by_cases b2 : k2 = k1
        · subst b2
          simp [Table.put, a1, c1, h, h', bytesLess_irrefl]
        · simp [Table.put, a1, b1, b2, c1, h, h']
    · by_cases a2 : k = k1
      · subst a2
        by_cases b1 : bytesLess k2.data k.data = true
        · simp [Table.put, a1, b1, h, h', bytesLess_asymm b1]
        · simp [Table.put, a1, b1, h, h']
      · by_cases b1 : bytesLess k2.data k1.data = true
        · have c1 : bytesLess k.data k2.data = false := by
            by_contra hc
            exact a1 (bytesLess_trans (by simpa using hc) b1)
          simp [Table.put, a1, a2, b1, c1, h, h']
        · by_cases b2 : k2 = k1
          · subst b2
            simp [Table.put, a1, a2, b1, h, h']
          · simp [Table.put, a1, a2, b1, b2, ih]

/-! ## The write transaction of `importJSON` -/

theorem put_metadata_ok (eng : Engine) (txn : Txn) (k v : String)
    (h : eng.putError "metadata.v2" (txn.dbs.metadata.getD []) k v = none) :
    put eng txn "metadata.v2" k v =
      (⟨{ txn.dbs with metadata := some ((txn.dbs.metadata.getD []).put k v) },
        txn.puts ++ [("metadata.v2", k, v)]⟩, none) := by
  have hd : dbiOf "metadata.v2" = some DBI.metadata := by decide
  obtain ⟨⟨m, b⟩, p⟩ := txn
  cases m <;> simp at h <;>
    simp [put, Txn.openDBI, hd, Env.table, Env.setTable, Txn.put, h]

theorem put_metadata_err (eng : Engine) (txn : Txn) (k v : String) (code : Nat)
    (h : eng.putError "metadata.v2" (txn.dbs.metadata.getD []) k v = some code) :
    (put eng txn "metadata.v2" k v).2 = some (.wrap "writing metadata" (.engine code)) := by
  have hd : dbiOf "metadata.v2" = some DBI.metadata := by decide
  obtain ⟨⟨m, b⟩, p⟩ := txn
  cases m <;> simp at h <;>
    simp [put, Txn.openDBI, hd, Env.table, Env.setTable, Txn.put, h]

theorem put_bodies_ok (eng : Engine) (txn : Txn) (k v : String)
    (h : eng.putError "bodies.v2" (txn.dbs.bodies.getD []) k v = none) :
    put eng txn "bodies.v2" k v =
      (⟨{ txn.dbs with bodies := some ((txn.dbs.bodies.getD []).put k v) },
        txn.puts ++ [("bodies.v2", k, v)]⟩, none) := by
  have hd : dbiOf "bodies.v2" = some DBI.bodies := by decide
  obtain ⟨⟨m, b⟩, p⟩ := txn
  cases b <;> simp at h <;>
    simp [put, Txn.openDBI, hd, Env.table, Env.setTable, Txn.put, h]

theorem put_bodies_err (eng : Engine) (txn : Txn) (k v : String) (code : Nat)
    (h : eng.putError "bodies.v2" (txn.dbs.bodies.getD []) k v = some code) :
    (put eng txn "bodies.v2" k v).2 = some (.wrap "writing metadata" (.engine code)) := by
  have hd : dbiOf "bodies.v2" = some DBI.bodies := by decide
  obtain ⟨⟨m, b⟩, p⟩ := txn
  cases b <;> simp at h <;>
    simp [put, Txn.openDBI, hd, Env.table, Env.setTable, Txn.put, h]

/-- One round of the import loop that goes through: both puts are accepted. -/
theorem importLoop_cons_ok (eng : Engine) (d : Prompt) (db : List (Option Prompt)) (txn : Txn)
    (h1 : eng.putError "metadata.v2" (txn.dbs.metadata.getD []) (marshalID d.metadata.id)
      (marshalMetadata d.metadata) = none)
    (h2 : eng.putError "bodies.v2" (txn.dbs.bodies.getD []) (marshalID d.metadata.id)
      d.content = none) :
    importLoop eng (some d :: db) txn =
      importLoop eng db ⟨txn.dbs.putDoc d, txn.puts ++ docPuts d⟩ := by
  rw [importLoop]
  rw [put_metadata_ok eng txn _ _ h1]
  dsimp only
  rw [put_bodies_ok eng _ _ _ (by simpa using h2)]
  simp [Env.putDoc, docPuts]

/-- A round of the import loop in which the engine refuses a put ends the loop
with an error. -/
theorem importLoop_cons_err (eng : Engine) (d : Prompt) (db : List (Option Prompt)) (txn : Txn)
    (h : eng.putError "metadata.v2" (txn.dbs.metadata.getD []) (marshalID d.metadata.id)
        (marshalMetadata d.metadata) ≠ none ∨
      eng.putError "bodies.v2" (txn.dbs.bodies.getD []) (marshalID d.metadata.id)
        d.content ≠ none) :
    ∃ e, (importLoop eng (some d :: db) txn).2 = Outcome.err e := by
  rw [importLoop]
  cases h1 : eng.putError "metadata.v2" (txn.dbs.metadata.getD []) (marshalID d.metadata.id)
      (marshalMetadata d.metadata) with
  | some code =>
    have := put_metadata_err eng txn _ _ code h1
    revert this
    generalize put eng txn "metadata.v2" (marshalID d.metadata.id)
      (marshalMetadata d.metadata) = r
    obtain ⟨t, o⟩ := r
    rintro rfl
    exact ⟨_, rfl⟩
  | none =>
    rw [put_metadata_ok eng txn _ _ h1]
    dsimp only
    have h2 : eng.putError "bodies.v2" (txn.dbs.bodies.getD []) (marshalID d.metadata.id)
        d.content ≠ none := by
      rcases h with h | h
      · exact absurd h1 h
      · exact h
    obtain ⟨code, hc⟩ := Option.ne_none_iff_exists'.mp h2
    have := put_bodies_err eng ⟨{ txn.dbs with metadata := some ((txn.dbs.metadata.getD []).put
      (marshalID d.metadata.id) (marshalMetadata d.metadata)) },
        txn.puts ++ [("metadata.v2", marshalID d.metadata.id, marshalMetadata d.metadata)]⟩
      (marshalID d.metadata.id) d.content code (by simpa using hc)
    revert this
    generalize put eng _ "bodies.v2" (marshalID d.metadata.id) d.content = r
    obtain ⟨t, o⟩ := r
    rintro rfl
    exact ⟨_, rfl⟩

/-- A transaction that returns nil has gone through every document: no element
of the slice was nil, and the tables and the puts are those of the documents in
order. -/
theorem importLoop_nil (eng : Engine) (db : List (Option Prompt)) (txn txn2 : Txn)
    (h : importLoop eng db txn = (txn2, Outcome.nil)) :
    ∃ S : List Prompt, db = S.map some ∧ txn2.dbs = S.foldl Env.putDoc txn.dbs ∧
      txn2.puts = txn.puts ++ S.flatMap docPuts := by
  induction db generalizing txn with
  | nil =>
    simp only [importLoop, Prod.mk.injEq, and_true] at h
    subst h
    exact ⟨[], by simp⟩
  | cons o db ih =>
    cases o with
    | none => simp [importLoop] at h
    | some d =>
      by_cases hacc : eng.putError "metadata.v2" (txn.dbs.metadata.getD [])
          (marshalID d.metadata.id) (marshalMetadata d.metadata) = none ∧
        eng.putError "bodies.v2" (txn.dbs.bodies.getD []) (marshalID d.metadata.id)
          d.content = none
      · rw [importLoop_cons_ok eng d db txn hacc.1 hacc.2] at h
        obtain ⟨S, hS, hd, hp⟩ := ih _ h
        refine ⟨d :: S, by simp [hS], by simpa using hd, ?_⟩
        simp [hp, List.append_assoc]
      · have hne : eng.putError "metadata.v2" (txn.dbs.metadata.getD [])
            (marshalID d.metadata.id) (marshalMetadata d.metadata) ≠ none ∨
          eng.putError "bodies.v2" (txn.dbs.bodies.getD []) (marshalID d.metadata.id)
            d.content ≠ none := by
          by_contra hc
          push_neg at hc
          exact hacc hc
        obtain ⟨e, he⟩ := importLoop_cons_err eng d db txn hne
        rw [h] at he
        simp at he

/-- When the engine accepts every put, the transaction goes through. -/
theorem importLoop_of_accepts (eng : Engine) (S : List Prompt) (txn : Txn)
    (h : ∀ d ∈ S, eng.Accepts d) :
    importLoop eng (S.map some) txn =
      (⟨S.foldl Env.putDoc txn.dbs, txn.puts ++ S.flatMap docPuts⟩, Outcome.nil) := by
  induction S generalizing txn with
  | nil => simp [importLoop]
  | cons d S ih =>
    have hd := h d (List.mem_cons_self _ _)
    simp only [List.map_cons]
    rw [importLoop_cons_ok eng d _ txn (hd _).1 (hd _).2]
    rw [ih _ (fun x hx => h x (List.mem_cons_of_mem _ hx))]
    simp [List.append_assoc]

/-! ## The effect of a committed import on the tables -/

theorem Env.putDoc_absorb (env : Env) (d e : Prompt)
    (h : marshalID e.metadata.id = marshalID d.metadata.id) :
    (env.putDoc e).putDoc d = env.putDoc d := by
  simp [Env.putDoc, h, Table.put_put_same]

theorem Env.putDoc_comm (env : Env) (d e : Prompt)
    (h : marshalID e.metadata.id ≠ marshalID d.metadata.id) :
    (env.putDoc e).putDoc d = (env.putDoc d).putDoc e := by
  simp only [Env.putDoc, Option.getD_some]
  rw [Table.put_comm _ _ _ _ _ h, Table.put_comm _ _ _ _ _ h]

theorem Env.foldl_putDoc_absorb (S : List Prompt) (env : Env) (d : Prompt) :
    (S.foldl Env.putDoc (env.putDoc d)).putDoc d = (S.foldl Env.putDoc env).putDoc d := by
  induction S generalizing env with
  | nil => exact Env.putDoc_absorb env d d rfl
  | cons e S ih =>
    simp only [List.foldl_cons]
    by_cases h : marshalID e.metadata.id = marshalID d.metadata.id
    · have h1 : (env.putDoc d).putDoc e = env.putDoc e := Env.putDoc_absorb env e d h.symm
      rw [h1]
    · rw [Env.putDoc_comm env e d (fun x => h x.symm), ih]

/-- Writing the documents of a snapshot a second time changes nothing. -/
theorem Env.foldl_putDoc_idem (S : List Prompt) (env : Env) :
    S.foldl Env.putDoc (S.foldl Env.putDoc env) = S.foldl Env.putDoc env := by
  induction S using List.reverseRecOn generalizing env with
  | nil => rfl
  | append_singleton S d ih =>
    simp only [List.foldl_append, List.foldl_cons, List.foldl_nil]
    rw [Env.foldl_putDoc_absorb, ih]

theorem Env.lookup_putDoc_metadata (env : Env) (d : Prompt) :
    (env.putDoc d).lookup DBI.metadata (marshalID d.metadata.id)
      = some (marshalMetadata d.metadata) := by
  simp [Env.putDoc, Env.lookup, Env.table, Table.get_put_self]

theorem Env.lookup_putDoc_bodies (env : Env) (d : Prompt) :
    (env.putDoc d).lookup DBI.bodies (marshalID d.metadata.id) = some d.content := by
  simp [Env.putDoc, Env.lookup, Env.table, Table.get_put_self]

theorem Env.lookup_putDoc_of_ne (env : Env) (d : Prompt) (dbi : DBI) (k : String)
    (h : k ≠ marshalID d.metadata.id) :
    (env.putDoc d).lookup dbi k = env.lookup dbi k := by
  obtain ⟨m, b⟩ := env
  have h2 : ¬ marshalID d.metadata.id = k := fun e => h e.symm
  cases dbi
  · cases m <;>
      simp [Env.putDoc, Env.lookup, Env.table, Table.get_put_of_ne _ _ _ _ h, Table.get, h2]
  · cases b <;>
      simp [Env.putDoc, Env.lookup, Env.table, Table.get_put_of_ne _ _ _ _ h, Table.get, h2]

theorem Env.lookup_foldl_putDoc_of_not_mem (S : List Prompt) (env : Env) (dbi : DBI) (k : String)
    (h : ∀ d ∈ S, k ≠ marshalID d.metadata.id) :
    (S.foldl Env.putDoc env).lookup dbi k = env.lookup dbi k := by
  induction S generalizing env with
  | nil => rfl
  | cons d S ih =>
    simp only [List.foldl_cons]
    rw [ih _ (fun x hx => h x (List.mem_cons_of_mem _ hx))]
    exact Env.lookup_putDoc_of_ne env d dbi k (h d (List.mem_cons_self _ _))

/-- After the documents are written, the records under the key of a document
that no later document overwrites are those of that document. -/
theorem Env.lookup_foldl_putDoc_last (pre post : List Prompt) (d : Prompt) (env : Env)
    (h : ∀ e ∈ post, e.metadata.id ≠ d.metadata.id) :
    ((pre ++ d :: post).foldl Env.putDoc env).lookup DBI.metadata (marshalID d.metadata.id)
        = some (marshalMetadata d.metadata) ∧
    ((pre ++ d :: post).foldl Env.putDoc env).lookup DBI.bodies (marshalID d.metadata.id)
        = some d.content := by
  have hk : ∀ e ∈ post, marshalID d.metadata.id ≠ marshalID e.metadata.id :=
    fun e he heq => h e he (marshalID_injective heq.symm)
  simp only [List.foldl_append, List.foldl_cons]
  rw [Env.lookup_foldl_putDoc_of_not_mem post _ _ _ hk,
    Env.lookup_foldl_putDoc_of_not_mem post _ _ _ hk]
  exact ⟨Env.lookup_putDoc_metadata _ d, Env.lookup_putDoc_bodies _ d⟩

/-! ## The join of `export` -/

theorem getBody_eq (env : Env) (p : List (String × String × String)) (uuid : String) :
    getBody ⟨env, p⟩ uuid =
      match env.bodies with
      | none => .error (.wrap "error opening bodies database" .notFound)
      | some bt =>
        match bt.get (marshalID { kind := "User", uuid := uuid }) with
        | none => .error (.bodyNotFound uuid)
        | some val => .ok val := by
  have hd : dbiOf "bodies.v2" = some DBI.bodies := by decide
  obtain ⟨m, b⟩ := env
  cases b with
  | none => simp [getBody, Txn.openDBI, hd, Env.table]
  | some bt =>
    simp only [getBody, Txn.openDBI, hd, Env.table, Txn.get]

theorem getBody_ok_iff (env : Env) (uuid val : String) :
    (env.view fun txn => getBody txn uuid) = .ok val ↔
      env.lookup DBI.bodies (marshalID { kind := "User", uuid := uuid }) = some val := by
  simp only [Env.view, getBody_eq, Env.lookup, Env.table]
  cases env.bodies with
  | none => simp
  | some bt =>
    cases h : bt.get (marshalID { kind := "User", uuid := uuid }) <;> simp [h]

theorem getAllMetadata_eq (env : Env) :
    env.view getAllMetadata =
      match env.metadata with
      | none => .error (.wrap "opening database" .notFound)
      | some mt => getAllMetadataLoop mt [] := by
  have hd : dbiOf "metadata.v2" = some DBI.metadata := by decide
  obtain ⟨m, b⟩ := env
  cases m <;> simp [Env.view, getAllMetadata, Txn.openDBI, hd, Env.table]

theorem getAllMetadataLoop_ok (t : Table) (acc ms : List Metadata)
    (h : getAllMetadataLoop t acc = .ok ms) :
    ∃ ms2, ms = acc ++ ms2 ∧
      List.Forall₂ (fun (r : String × String) m => unmarshalMetadata r.2 = .ok m) t ms2 := by
  induction t generalizing acc with
  | nil =>
    simp only [getAllMetadataLoop, Except.ok.injEq] at h
    exact ⟨[], by simp [h], List.Forall₂.nil⟩
  | cons r t ih =>
    obtain ⟨k, v⟩ := r
    simp only [getAllMetadataLoop] at h
    cases hv : unmarshalMetadata v with
    | error e => simp [hv] at h
    | ok m =>
      simp only [hv] at h
      obtain ⟨ms2, h1, h2⟩ := ih _ h
      exact ⟨m :: ms2, by simp [h1], List.Forall₂.cons hv h2⟩

theorem getAllMetadataLoop_of_forall₂ (t : Table) (acc ms2 : List Metadata)
    (h : List.Forall₂ (fun (r : String × String) m => unmarshalMetadata r.2 = .ok m) t ms2) :
    getAllMetadataLoop t acc = .ok (acc ++ ms2) := by
  induction h generalizing acc with
  | nil => simp [getAllMetadataLoop]
  | @cons r m t ms hv _ ih =>
    obtain ⟨k, v⟩ := r
    simp only [getAllMetadataLoop]
    rw [show unmarshalMetadata v = .ok m from hv]
    simp only [ih, List.append_assoc, List.singleton_append]

theorem getAllMetadataLoop_error (t : Table) (acc : List Metadata) (e : Error)
    (h : getAllMetadataLoop t acc = .error e) :
    ∃ r ∈ t, ∃ e2, unmarshalMetadata r.2 = .error e2 := by
  induction t generalizing acc with
  | nil => simp [getAllMetadataLoop] at h
  | cons r t ih =>
    obtain ⟨k, v⟩ := r
    simp only [getAllMetadataLoop] at h
    cases hv : unmarshalMetadata v with
    | error e2 => exact ⟨(k, v), List.mem_cons_self _ _, e2, hv⟩
    | ok m =>
      simp only [hv] at h
      obtain ⟨r, hr, e2, he⟩ := ih _ h
      exact ⟨r, List.mem_cons_of_mem _ hr, e2, he⟩

theorem forall₂_chain {α β γ : Type} {R : α → β → Prop} {Q : β → γ → Prop}
    {l1 : List α} {l2 : List β} {l3 : List γ} (h1 : List.Forall₂ R l1 l2)
    (h2 : List.Forall₂ Q l2 l3) :
    List.Forall₂ (fun a c => ∃ b, R a b ∧ Q b c) l1 l3 := by
  induction h1 generalizing l3 with
  | nil =>
    cases h2
    exact List.Forall₂.nil
  | cons hx _ ih =>
    cases h2 with
    | cons hy hrest => exact List.Forall₂.cons ⟨_, hx, hy⟩ (ih hrest)

theorem exportLoop_ok (env : Env) (ms : List Metadata) (acc db : List Prompt)
    (h : exportLoop env ms acc = .ok db) :
    ∃ db2, db = acc ++ db2 ∧
      List.Forall₂ (fun (m : Metadata) (doc : Prompt) => doc.metadata = m ∧
        env.lookup DBI.bodies (marshalID { kind := "User", uuid := m.id.uuid })
          = some doc.content) ms db2 := by
  induction ms generalizing acc with
  | nil =>
    simp only [exportLoop, Except.ok.injEq] at h
    exact ⟨[], by simp [h], List.Forall₂.nil⟩
  | cons m ms ih =>
    simp only [exportLoop] at h
    cases hb : (env.view fun txn => getBody txn m.id.uuid) with
    | error e => simp [hb] at h
    | ok body =>
      simp only [hb] at h
      obtain ⟨db2, h1, h2⟩ := ih _ h
      exact ⟨⟨m, body⟩ :: db2, by simp [h1],
        List.Forall₂.cons ⟨rfl, (getBody_ok_iff env _ _).mp hb⟩ h2⟩

theorem exportLoop_of_forall₂ (env : Env) (ms : List Metadata) (acc db2 : List Prompt)
    (h : List.Forall₂ (fun (m : Metadata) (doc : Prompt) => doc.metadata = m ∧
        env.lookup DBI.bodies (marshalID { kind := "User", uuid := m.id.uuid })
          = some doc.content) ms db2) :
    exportLoop env ms acc = .ok (acc ++ db2) := by
  induction h generalizing acc with
  | nil => simp [exportLoop]
  | @cons m doc ms db hv _ ih =>
    simp only [exportLoop]
    rw [(getBody_ok_iff env _ _).mpr hv.2]
    simp only [ih, List.append_assoc, List.singleton_append]
    obtain ⟨dm, dc⟩ := doc
    obtain ⟨h1, _⟩ := hv
    simp only at h1
    subst h1
    rfl

/-- What `exportDocs` returns when it succeeds: the metadata table exists and
the documents are its records, joined with their bodies, in order. -/
theorem exportDocs_ok (env : Env) (db : List Prompt) (h : exportDocs env = .ok db) :
    ∃ mt, env.metadata = some mt ∧
      List.Forall₂ (fun (r : String × String) (doc : Prompt) =>
        unmarshalMetadata r.2 = .ok doc.metadata ∧
        env.lookup DBI.bodies (marshalID { kind := "User", uuid := doc.metadata.id.uuid })
          = some doc.content) mt db := by
  unfold exportDocs at h
  rw [getAllMetadata_eq] at h
  cases hm : env.metadata with
  | none => simp [hm] at h
  | some mt =>
    simp only [hm] at h
    cases hl : getAllMetadataLoop mt [] with
    | error e => simp [hl] at h
    | ok ms =>
      simp only [hl] at h
      obtain ⟨ms2, h1, h2⟩ := getAllMetadataLoop_ok _ _ _ hl
      obtain ⟨db2, h3, h4⟩ := exportLoop_ok _ _ _ _ h
      simp only [List.nil_append] at h1 h3
      subst h1 h3
      refine ⟨mt, rfl, ?_⟩
      refine List.Forall₂.imp ?_ (forall₂_chain h2 h4)
      rintro r doc ⟨m, hm1, hm2, hm3⟩
      subst hm2
      exact ⟨hm1, hm3⟩

theorem forall₂_right_diag {α β : Type} {R : α → β → Prop} {Q : β → β → Prop}
    {l : List α} {db : List β} (h : List.Forall₂ R l db) (hq : ∀ a b, R a b → Q b b) :
    List.Forall₂ Q db db := by
  induction h with
  | nil => exact List.Forall₂.nil
  | cons hx _ ih => exact List.Forall₂.cons (hq _ _ hx) ih

/-- The converse: when every record decodes and has its body, `exportDocs`
returns the joined documents. -/
theorem exportDocs_of_forall₂ (env : Env) (mt : Table) (db : List Prompt)
    (hm : env.metadata = some mt)
    (h : List.Forall₂ (fun (r : String × String) (doc : Prompt) =>
        unmarshalMetadata r.2 = .ok doc.metadata ∧
        env.lookup DBI.bodies (marshalID { kind := "User", uuid := doc.metadata.id.uuid })
          = some doc.content) mt db) :
    exportDocs env = .ok db := by
  unfold exportDocs
  rw [getAllMetadata_eq, hm]
  simp only
  have h1 : List.Forall₂ (fun (r : String × String) m => unmarshalMetadata r.2 = .ok m) mt
      (db.map Prompt.metadata) := by
    rw [List.forall₂_map_right_iff]
    exact List.Forall₂.imp (fun _ _ hx => hx.1) h
  have h2 : List.Forall₂ (fun (m : Metadata) (doc : Prompt) => doc.metadata = m ∧
        env.lookup DBI.bodies (marshalID { kind := "User", uuid := m.id.uuid })
          = some doc.content) (db.map Prompt.metadata) db := by
    rw [List.forall₂_map_left_iff]
    exact forall₂_right_diag h (fun _ _ hx => ⟨rfl, hx.2⟩)
  rw [getAllMetadataLoop_of_forall₂ _ _ _ h1]
  simp only [List.nil_append]
  rw [exportLoop_of_forall₂ _ _ _ _ h2]
  simp

/-! ## Properties of the pipelines -/

theorem exportJSON_ok (fs : FileSystem) (env : Env) (output : String) (out : Output)
    (h : exportJSON fs env output = .ok out) :
    ∃ db, exportDocs env = .ok db ∧
      out = (if output = "-" then Output.stdout (marshalIndent db ++ "\n")
        else Output.file output (marshalIndent db)) := by
  unfold exportJSON at h
  cases hd : exportDocs env with
  | error e => simp [hd] at h
  | ok db =>
    simp only [hd] at h
    refine ⟨db, rfl, ?_⟩
    by_cases ho : output = "-"
    · simp only [ho, if_true, Except.ok.injEq] at h ⊢
      exact h.symm
    · simp only [ho, if_false] at h ⊢
      cases hw : fs.writeError output (marshalIndent db) with
      | some code => simp [hw] at h
      | none =>
        simp only [hw, Except.ok.injEq] at h
        exact h.symm

/-- C3. When `export` succeeds, the metadata table exists and the exported
collection has one document per record of `metadata.v2`, in cursor order: the
metadata of the i-th document is the decoded value of the i-th record, and its
content is the value of `bodies.v2` under the key of the identity with kind
`"User"` and the uuid of that metadata. Neither the storage key of the record
nor the kind in its value enters. -/
theorem export_join (fs : FileSystem) (env : Env) (output : String) (out : Output)
    (h : exportJSON fs env output = .ok out) :
    ∃ (mt : Table) (db : List Prompt),
      env.metadata = some mt ∧
      out = (if output = "-" then Output.stdout (marshalIndent db ++ "\n")
        else Output.file output (marshalIndent db)) ∧
      db.length = mt.length ∧
      List.Forall₂ (fun (r : String × String) (doc : Prompt) =>
        unmarshalMetadata r.2 = .ok doc.metadata ∧
        env.lookup DBI.bodies (marshalID { kind := "User", uuid := doc.metadata.id.uuid })
          = some doc.content) mt db := by
  obtain ⟨db, hd, ho⟩ := exportJSON_ok fs env output out h
  obtain ⟨mt, hm, hf⟩ := exportDocs_ok env db hd
  exact ⟨mt, db, hm, ho, hf.length_eq.symm, hf⟩

/-- Witness for C3 on `joinStore`: the record of kind `"Default"` stored under
`k1` is joined with the body under the `"User"` key of its uuid. -/
theorem export_join_witness :
    exportJSON FileSystem.noDir joinStore "out.json"
      = .ok (Output.file "out.json" (marshalIndent joinDocs)) ∧
    ∃ (mt : Table) (db : List Prompt),
      joinStore.metadata = some mt ∧
      Output.file "out.json" (marshalIndent joinDocs)
        = (if "out.json" = "-" then Output.stdout (marshalIndent db ++ "\n")
          else Output.file "out.json" (marshalIndent db)) ∧
      db.length = mt.length ∧
      List.Forall₂ (fun (r : String × String) (doc : Prompt) =>
        unmarshalMetadata r.2 = .ok doc.metadata ∧
        joinStore.lookup DBI.bodies (marshalID { kind := "User", uuid := doc.metadata.id.uuid })
          = some doc.content) mt db :=
  ⟨by decide, export_join FileSystem.noDir joinStore "out.json" _ (by decide)⟩

/-- An import that does not return nil leaves the environment as it was. -/
theorem importJSON_atomic_aux (eng : Engine) (jsonBytes : String) (env : Env)
    (h : (importJSON eng jsonBytes env).2 ≠ Outcome.nil) :
    (importJSON eng jsonBytes env).1 = env := by
  unfold importJSON at h ⊢
  cases hu : unmarshalPrompts jsonBytes with
  | error e => rfl
  | ok db =>
    simp only [hu, Env.update] at h ⊢
    generalize importLoop eng db ⟨env, []⟩ = r at h ⊢
    obtain ⟨txn, o⟩ := r
    cases o with
    | nil => exact absurd rfl h
    | err e => rfl
    | panic => rfl

/-- C4. Atomicity of import: when `importJSON` does not return nil (it returns
an error of decoding or of a put on any document, or panics), the environment
afterwards is the environment before; nothing the transaction wrote remains. -/
theorem importJSON_atomic (eng : Engine) (jsonBytes : String) (env : Env)
    (h : (importJSON eng jsonBytes env).2 ≠ Outcome.nil) :
    (importJSON eng jsonBytes env).1 = env :=
  importJSON_atomic_aux eng jsonBytes env h

/-- Witness for C4: the engine refuses the key of the last document of
`twoDocs` after both puts of the first document were made in the transaction;
the import returns an error and the store is as before. -/
theorem importJSON_atomic_witness :
    (importJSON (Engine.keyLimit 30) twoDocs joinStore).2 ≠ Outcome.nil ∧
    (importJSON (Engine.keyLimit 30) twoDocs joinStore).1 = joinStore :=
  ⟨by decide, importJSON_atomic (Engine.keyLimit 30) twoDocs joinStore (by decide)⟩

/-- C6. Idempotence of import: importing the same bytes a second time leaves
the environment as the first import left it, so `export` gives the same
result after two imports as after one. -/
theorem importJSON_idempotent (eng : Engine) (jsonBytes : String) (env : Env) :
    (importJSON eng jsonBytes (importJSON eng jsonBytes env).1).1
      = (importJSON eng jsonBytes env).1 ∧
    ∀ (fs : FileSystem) (output : String),
      exportJSON fs (importJSON eng jsonBytes (importJSON eng jsonBytes env).1).1 output
        = exportJSON fs (importJSON eng jsonBytes env).1 output := by
  have key : (importJSON eng jsonBytes (importJSON eng jsonBytes env).1).1
      = (importJSON eng jsonBytes env).1 := by
    by_cases h1 : (importJSON eng jsonBytes env).2 = Outcome.nil
    · by_cases h2 : (importJSON eng jsonBytes (importJSON eng jsonBytes env).1).2 = Outcome.nil
      · unfold importJSON at h1 h2 ⊢
        cases hu : unmarshalPrompts jsonBytes with
        | error e => rfl
        | ok db =>
          simp only [hu, Env.update] at h1 h2 ⊢
          cases hr : importLoop eng db ⟨env, []⟩ with
          | mk txn o =>
            simp only [hr] at h1 h2 ⊢
            cases o with
            | err e => simp at h1
            | panic => simp at h1
            | nil =>
              simp only at h2 ⊢
              obtain ⟨S, hS, hd, _⟩ := importLoop_nil eng db _ _ hr
              cases hr2 : importLoop eng db ⟨txn.dbs, []⟩ with
              | mk txn2 o2 =>
                simp only [hr2] at h2 ⊢
                cases o2 with
                | err e => simp at h2
                | panic => simp at h2
                | nil =>
                  simp only
                  obtain ⟨S2, hS2, hd2, _⟩ := importLoop_nil eng db _ _ hr2
                  have hSS : S2 = S := by
                    have := hS.symm.trans hS2
                    exact (List.map_injective_iff.mpr (Option.some_injective _) this).symm
                  subst hSS
                  simp only at hd hd2
                  rw [hd2, hd, Env.foldl_putDoc_idem]
      · exact importJSON_atomic_aux eng jsonBytes _ h2
    · rw [importJSON_atomic_aux eng jsonBytes env h1]
      exact importJSON_atomic_aux eng jsonBytes env h1
  exact ⟨key, fun fs output => by rw [key]⟩

/-- What a nil result of `importJSON` says about the run: the bytes decode to
documents without a nil element and the transaction went through all of them. -/
theorem importJSON_nil (eng : Engine) (jsonBytes : String) (env env2 : Env)
    (h : importJSON eng jsonBytes env = (env2, Outcome.nil)) :
    ∃ (S : List Prompt) (txn : Txn),
      unmarshalPrompts jsonBytes = .ok (S.map some) ∧
      importLoop eng (S.map some) ⟨env, []⟩ = (txn, Outcome.nil) ∧
      txn.dbs = env2 ∧ env2 = S.foldl Env.putDoc env ∧ txn.puts = S.flatMap docPuts := by
  unfold importJSON at h
  cases hu : unmarshalPrompts jsonBytes with
  | error e => simp [hu] at h
  | ok db =>
    simp only [hu, Env.update] at h
    cases hr : importLoop eng db ⟨env, []⟩ with
    | mk txn o =>
      simp only [hr] at h
      cases o with
      | err e => simp at h
      | panic => simp at h
      | nil =>
        simp only [Prod.mk.injEq, and_true] at h
        obtain ⟨S, hS, hd, hp⟩ := importLoop_nil eng db _ _ hr
        subst hS
        refine ⟨S, txn, rfl, hr, h, ?_, by simpa using hp⟩
        rw [← h, hd]

/-- C5. Postcondition of a successful import: the documents decoded from the
bytes are written one after the other, each by exactly two puts under the one
key `json.Marshal(d.Metadata.ID)`, the first into `metadata.v2` with the value
`json.Marshal(d.Metadata)`, the second into `bodies.v2` with the raw content.
Afterwards the two tables hold, under the key of a document that no later
document shares its identity with, these two values; and every key that is
not the key of a document holds what it held before, in both tables. -/
theorem importJSON_postcondition (eng : Engine) (jsonBytes : String) (env env2 : Env)
    (h : importJSON eng jsonBytes env = (env2, Outcome.nil)) :
    ∃ (S : List Prompt) (txn : Txn),
      unmarshalPrompts jsonBytes = .ok (S.map some) ∧
      importLoop eng (S.map some) ⟨env, []⟩ = (txn, Outcome.nil) ∧
      txn.dbs = env2 ∧
      txn.puts = S.flatMap (fun d =>
        [("metadata.v2", marshalID d.metadata.id, marshalMetadata d.metadata),
         ("bodies.v2", marshalID d.metadata.id, d.content)]) ∧
      (∀ (pre post : List Prompt) (d : Prompt), S = pre ++ d :: post →
        (∀ e ∈ post, e.metadata.id ≠ d.metadata.id) →
        env2.lookup DBI.metadata (marshalID d.metadata.id) = some (marshalMetadata d.metadata) ∧
        env2.lookup DBI.bodies (marshalID d.metadata.id) = some d.content) ∧
      (∀ (dbi : DBI) (k : String), (∀ d ∈ S, k ≠ marshalID d.metadata.id) →
        env2.lookup dbi k = env.lookup dbi k) := by
  obtain ⟨S, txn, hu, hr, hd, he, hp⟩ := importJSON_nil eng jsonBytes env env2 h
  refine ⟨S, txn, hu, hr, hd, hp, ?_, ?_⟩
  · intro pre post d hS hlast
    rw [he, hS]
    exact Env.lookup_foldl_putDoc_last pre post d env hlast
  · intro dbi k hk
    rw [he]
    exact Env.lookup_foldl_putDoc_of_not_mem S env dbi k hk

/-- Witness for C5: importing `twoDocs` into `joinStore` with an engine that
refuses nothing. -/
theorem importJSON_postcondition_witness :
    importJSON Engine.acceptAll twoDocs joinStore = (joinStoreAfter, Outcome.nil) ∧
    ∃ (S : List Prompt) (txn : Txn),
      unmarshalPrompts twoDocs = .ok (S.map some) ∧
      importLoop Engine.acceptAll (S.map some) ⟨joinStore, []⟩ = (txn, Outcome.nil) ∧
      txn.dbs = joinStoreAfter ∧
      txn.puts = S.flatMap (fun d =>
        [("metadata.v2", marshalID d.metadata.id, marshalMetadata d.metadata),
         ("bodies.v2", marshalID d.metadata.id, d.content)]) ∧
      (∀ (pre post : List Prompt) (d : Prompt), S = pre ++ d :: post →
        (∀ e ∈ post, e.metadata.id ≠ d.metadata.id) →
        joinStoreAfter.lookup DBI.metadata (marshalID d.metadata.id)
          = some (marshalMetadata d.metadata) ∧
        joinStoreAfter.lookup DBI.bodies (marshalID d.metadata.id) = some d.content) ∧
      (∀ (dbi : DBI) (k : String), (∀ d ∈ S, k ≠ marshalID d.metadata.id) →
        joinStoreAfter.lookup dbi k = joinStore.lookup dbi k) :=
  ⟨by decide,
    importJSON_postcondition Engine.acceptAll twoDocs joinStore joinStoreAfter (by decide)⟩

/-! ## Decoding the snapshot -/

theorem foldlM_decodeIDField_uuid (kvs : List (String × JVal)) (old id : ID)
    (hk : ∀ kv ∈ kvs, findField ["kind", "uuid"] kv.1 ≠ some 1)
    (h : kvs.foldlM decodeIDField old = .ok id) : id.uuid = old.uuid := by
  induction kvs generalizing old with
  | nil =>
    simp only [List.foldlM, pure, Except.pure, Except.ok.injEq] at h
    rw [h]
  | cons kv kvs ih =>
    simp only [List.foldlM, bind, Except.bind] at h
    cases hs : decodeIDField old kv with
    | error e => simp [hs] at h
    | ok mid =>
      simp only [hs] at h
      have h1 := ih mid (fun x hx => hk x (List.mem_cons_of_mem _ hx)) h
      rw [h1]
      have hkv := hk kv (List.mem_cons_self _ _)
      unfold decodeIDField at hs
      split at hs
      · cases hd : decodeString old.kind kv.2 with
        | error e => simp [hd, Except.map] at hs
        | ok s =>
          simp only [hd, Except.map, Except.ok.injEq] at hs
          rw [← hs]
      · next h1 => exact absurd h1 hkv
      · simp only [Except.ok.injEq] at hs
        rw [hs]

theorem foldlM_decodePromptField_content (kvs : List (String × JVal)) (old p : Prompt)
    (hk : ∀ kv ∈ kvs, findField ["metadata", "content"] kv.1 ≠ some 1)
    (h : kvs.foldlM decodePromptField old = .ok p) : p.content = old.content := by
  induction kvs generalizing old with
  | nil =>
    simp only [List.foldlM, pure, Except.pure, Except.ok.injEq] at h
    rw [h]
  | cons kv kvs ih =>
    simp only [List.foldlM, bind, Except.bind] at h
    cases hs : decodePromptField old kv with
    | error e => simp [hs] at h
    | ok mid =>
      simp only [hs] at h
      have h1 := ih mid (fun x hx => hk x (List.mem_cons_of_mem _ hx)) h
      rw [h1]
      have hkv := hk kv (List.mem_cons_self _ _)
      unfold decodePromptField at hs
      split at hs
      · cases hd : decodeMetadata old.metadata kv.2 with
        | error e => simp [hd, Except.map] at hs
        | ok s =>
          simp only [hd, Except.map, Except.ok.injEq] at hs
          rw [← hs]
      · next h1 => exact absurd h1 hkv
      · simp only [Except.ok.injEq] at hs
        rw [hs]

/-- C8, as the code has it. Bytes that are not well-formed JSON make
`importJSON` return the syntax error of `json.Unmarshal` without running the
transaction: the result is the same for every engine and the environment is
as before. A document that lacks fields is not rejected: an object without a
`content` member decodes to a document with empty content, and an `id`
object without a `uuid` member leaves the uuid at its zero value. -/
theorem importJSON_malformed (eng : Engine) (jsonBytes : String) (env : Env)
    (h : parseJSON jsonBytes = none) :
    importJSON eng jsonBytes env = (env, Outcome.err Error.syntaxError) ∧
    (∀ (kvs : List (String × JVal)) (p : Prompt),
      (∀ kv ∈ kvs, findField ["metadata", "content"] kv.1 ≠ some 1) →
      decodePromptPtr (JVal.obj kvs) = .ok (some p) → p.content = "") ∧
    (∀ (kvs : List (String × JVal)) (id : ID),
      (∀ kv ∈ kvs, findField ["kind", "uuid"] kv.1 ≠ some 1) →
      decodeID Metadata.zero.id (JVal.obj kvs) = .ok id → id.uuid = "") ∧
    decodePromptPtr (JVal.obj []) = .ok (some Prompt.zero) := by
  refine ⟨?_, ?_, ?_, rfl⟩
  · simp [importJSON, unmarshalPrompts, h]
  · intro kvs p hk hd
    simp only [decodePromptPtr, Except.map] at hd
    cases hf : kvs.foldlM decodePromptField Prompt.zero with
    | error e => simp [hf] at hd
    | ok q =>
      simp only [hf, Except.ok.injEq, Option.some.injEq] at hd
      subst hd
      exact foldlM_decodePromptField_content kvs Prompt.zero q hk hf
  · intro kvs id hk hd
    exact foldlM_decodeIDField_uuid kvs _ id hk hd

/-- Witness for C8: an unterminated array. -/
theorem importJSON_malformed_witness :
    parseJSON "[\x7b" = none ∧
    importJSON Engine.acceptAll "[\x7b" joinStore = (joinStore, Outcome.err Error.syntaxError) :=
  ⟨rfl, (importJSON_malformed Engine.acceptAll "[\x7b" joinStore rfl).1⟩

/-- Counterexample to C8 as stated: the document of `lackingDoc` has neither
`metadata.id.uuid` nor `content`, and `importJSON` returns nil and writes it
under the key of the identity with the empty uuid. -/
theorem importJSON_accepts_lacking_fields :
    importJSON Engine.acceptAll lackingDoc freshStore =
      (⟨some [(marshalID ⟨"User", ""⟩, marshalMetadata ⟨⟨"User", ""⟩, "T", false, ""⟩)],
        some [(marshalID ⟨"User", ""⟩, "")]⟩, Outcome.nil) := by
  decide

/-! ## Empty stores -/

/-- C9, as the code has it. Importing `[]` returns nil and leaves the
environment as it was, creating no database. Exporting an environment whose
`metadata.v2` exists and has no record yields `[]`: printed, followed by a
newline, on standard output, or written to the named file, in which case
`export` returns the error of `os.WriteFile` when the file cannot be written.
Exporting an environment in which `metadata.v2` does not exist fails on
opening it. -/
theorem export_empty (eng : Engine) (fs : FileSystem) (env : Env) :
    importJSON eng "[]" env = (env, Outcome.nil) ∧
    (env.metadata = some [] →
      exportJSON fs env "-" = .ok (Output.stdout "[]\n") ∧
      ∀ path : String, path ≠ "-" →
        exportJSON fs env path =
          match fs.writeError path "[]" with
          | some code => .error (Error.os code)
          | none => .ok (Output.file path "[]")) ∧
    (env.metadata = none →
      ∀ output : String,
        exportJSON fs env output = .error (Error.wrap "opening database" Error.notFound)) := by
  have hu : unmarshalPrompts "[]" = .ok [] := by decide
  refine ⟨?_, ?_, ?_⟩
  · simp [importJSON, hu, Env.update, importLoop]
  · intro hm
    have hd : exportDocs env = .ok [] := by
      unfold exportDocs
      rw [getAllMetadata_eq, hm]
      rfl
    refine ⟨?_, ?_⟩
    · simp only [exportJSON, hd, marshalIndent]
      rfl
    · intro path hp
      simp only [exportJSON, hd, marshalIndent, hp, if_false]
  · intro hm output
    have hd : exportDocs env = .error (Error.wrap "opening database" Error.notFound) := by
      unfold exportDocs
      rw [getAllMetadata_eq, hm]
    simp [exportJSON, hd]

/-- Witness for C9: a store whose `metadata.v2` exists and is empty, exported
to standard output, to a file, and to a file in a directory that does not
exist. -/
theorem export_empty_witness :
    (⟨some [], none⟩ : Env).metadata = some [] ∧
    exportJSON FileSystem.noDir ⟨some [], none⟩ "-" = .ok (Output.stdout "[]\n") ∧
    exportJSON FileSystem.noDir ⟨some [], none⟩ "out.json" = .ok (Output.file "out.json" "[]") ∧
    exportJSON FileSystem.noDir ⟨some [], none⟩ "nodir/out.json" = .error (Error.os 2) :=
  ⟨rfl, ((export_empty Engine.acceptAll FileSystem.noDir ⟨some [], none⟩).2.1 rfl).1,
    by decide, by decide⟩

/-- Counterexample to C9 as stated: a freshly created store holds no record,
importing `[]` leaves it as it is, and exporting it fails. -/
theorem export_fresh_store_fails :
    importJSON Engine.acceptAll "[]" freshStore = (freshStore, Outcome.nil) ∧
    exportJSON FileSystem.noDir freshStore "-"
      = .error (Error.wrap "opening database" Error.notFound) := by
  decide

/-! ## `listMetadata` -/

/-- C10 at the failing input: on a freshly created store the function passed
to `View` fails on opening `metadata.v2`, and `listMetadata` returns nil. -/
theorem listMetadata_swallows_error :
    (freshStore.view listMetadataView).2 = some (Error.wrap "opening database" Error.notFound) ∧
    (listMetadata freshStore).2 = none := by
  decide

/-! ## Orphaned metadata -/

theorem forall₂_mem_left {α β : Type} {R : α → β → Prop} {l1 : List α} {l2 : List β}
    (h : List.Forall₂ R l1 l2) {a : α} (ha : a ∈ l1) : ∃ b ∈ l2, R a b := by
  induction h with
  | nil => simp at ha
  | @cons x y xs ys hx _ ih =>
    rcases List.mem_cons.mp ha with rfl | hmem
    · exact ⟨y, List.mem_cons_self _ _, hx⟩
    · obtain ⟨b, hb, hr⟩ := ih hmem
      exact ⟨b, List.mem_cons_of_mem _ hb, hr⟩

theorem forall₂_mem_right {α β : Type} {R : α → β → Prop} {l1 : List α} {l2 : List β}
    (h : List.Forall₂ R l1 l2) {b : β} (hb : b ∈ l2) : ∃ a ∈ l1, R a b := by
  induction h with
  | nil => simp at hb
  | @cons x y xs ys hx _ ih =>
    rcases List.mem_cons.mp hb with rfl | hmem
    · exact ⟨x, List.mem_cons_self _ _, hx⟩
    · obtain ⟨a, ha, hr⟩ := ih hmem
      exact ⟨a, List.mem_cons_of_mem _ ha, hr⟩

theorem forall₂_split_left {α β : Type} {R : α → β → Prop} {pre post : List α} {a : α}
    {l2 : List β} (h : List.Forall₂ R (pre ++ a :: post) l2) :
    ∃ (p2 q2 : List β) (b : β), l2 = p2 ++ b :: q2 ∧ List.Forall₂ R pre p2 ∧ R a b ∧
      List.Forall₂ R post q2 := by
  induction pre generalizing l2 with
  | nil =>
    cases h with
    | cons hx hrest => exact ⟨[], _, _, rfl, List.Forall₂.nil, hx, hrest⟩
  | cons x pre ih =>
    cases h with
    | cons hx hrest =>
      obtain ⟨p2, q2, b, h1, h2, h3, h4⟩ := ih hrest
      exact ⟨_ :: p2, q2, b, by simp [h1], List.Forall₂.cons hx h2, h3, h4⟩

/-- The loop of `export` stops at the first metadata without a body, with the
error that names its uuid. -/
theorem exportLoop_first_orphan (env : Env) (bt : Table) (hb : env.bodies = some bt)
    (pre post : List Metadata) (m : Metadata) (acc : List Prompt)
    (hpre : ∀ x ∈ pre,
      env.lookup DBI.bodies (marshalID { kind := "User", uuid := x.id.uuid }) ≠ none)
    (hm : env.lookup DBI.bodies (marshalID { kind := "User", uuid := m.id.uuid }) = none) :
    exportLoop env (pre ++ m :: post) acc = .error (Error.bodyNotFound m.id.uuid) := by
  induction pre generalizing acc with
  | nil =>
    simp only [List.nil_append, exportLoop, Env.view, getBody_eq, hb]
    simp only [Env.lookup, Env.table, hb] at hm
    rw [hm]
  | cons x pre ih =>
    have hx := hpre x (List.mem_cons_self _ _)
    obtain ⟨val, hval⟩ := Option.ne_none_iff_exists'.mp hx
    simp only [List.cons_append, exportLoop]
    rw [(getBody_ok_iff env _ _).mpr hval]
    exact ih _ (fun y hy => hpre y (List.mem_cons_of_mem _ hy))

/-- In a table whose values all decode, the first record without a body. -/
theorem first_orphan (env : Env) (mt : Table)
    (hall : ∀ x ∈ mt, ∃ mx, unmarshalMetadata x.2 = .ok mx)
    (hex : ∃ r ∈ mt, ∃ m, unmarshalMetadata r.2 = .ok m ∧
      env.lookup DBI.bodies (marshalID { kind := "User", uuid := m.id.uuid }) = none) :
    ∃ (pre post : Table) (r0 : String × String) (m0 : Metadata),
      mt = pre ++ r0 :: post ∧ unmarshalMetadata r0.2 = .ok m0 ∧
      env.lookup DBI.bodies (marshalID { kind := "User", uuid := m0.id.uuid }) = none ∧
      ∀ x ∈ pre, ∀ mx, unmarshalMetadata x.2 = .ok mx →
        env.lookup DBI.bodies (marshalID { kind := "User", uuid := mx.id.uuid }) ≠ none := by
  induction mt with
  | nil =>
    obtain ⟨r, hr, _⟩ := hex
    simp at hr
  | cons r t ih =>
    obtain ⟨mr, hmr⟩ := hall r (List.mem_cons_self _ _)
    by_cases ho : env.lookup DBI.bodies (marshalID { kind := "User", uuid := mr.id.uuid }) = none
    · exact ⟨[], t, r, mr, rfl, hmr, ho, by simp⟩
    · have hex2 : ∃ r ∈ t, ∃ m, unmarshalMetadata r.2 = .ok m ∧
          env.lookup DBI.bodies (marshalID { kind := "User", uuid := m.id.uuid }) = none := by
        obtain ⟨r2, hr2, m2, hd2, ho2⟩ := hex
        rcases List.mem_cons.mp hr2 with rfl | hmem
        · rw [hmr] at hd2
          simp only [Except.ok.injEq] at hd2
          subst hd2
          exact absurd ho2 ho
        · exact ⟨r2, hmem, m2, hd2, ho2⟩
      obtain ⟨pre, post, r0, m0, h1, h2, h3, h4⟩ :=
        ih (fun x hx => hall x (List.mem_cons_of_mem _ hx)) hex2
      refine ⟨r :: pre, post, r0, m0, by simp [h1], h2, h3, ?_⟩
      intro x hx mx hdx
      rcases List.mem_cons.mp hx with rfl | hmem
      · rw [hmr] at hdx
        simp only [Except.ok.injEq] at hdx
        subst hdx
        exact ho
      · exact h4 x hmem mx hdx

theorem exportJSON_error_of_exportDocs (fs : FileSystem) (env : Env) (e : Error)
    (output : String) (h : exportDocs env = .error e) :
    exportJSON fs env output = .error e := by
  simp [exportJSON, h]

/-- C2, as the code has it. When some record of `metadata.v2` decodes to a
metadata whose body is missing under the key of kind `"User"` and its uuid,
`export` returns an error and no output, whatever the destination. When
moreover `bodies.v2` exists and every metadata value decodes, the error is
`body with UUID <uuid> not found` for the first such record in cursor
order. -/
theorem export_orphan (env : Env) (mt : Table) (r : String × String) (m : Metadata)
    (hm : env.metadata = some mt) (hr : r ∈ mt) (hd : unmarshalMetadata r.2 = .ok m)
    (ho : env.lookup DBI.bodies (marshalID { kind := "User", uuid := m.id.uuid }) = none) :
    (∀ (fs : FileSystem) (output : String), ∃ e, exportJSON fs env output = .error e) ∧
    (env.bodies ≠ none → (∀ x ∈ mt, ∃ mx, unmarshalMetadata x.2 = .ok mx) →
      ∃ (pre post : Table) (r0 : String × String) (m0 : Metadata),
        mt = pre ++ r0 :: post ∧ unmarshalMetadata r0.2 = .ok m0 ∧
        env.lookup DBI.bodies (marshalID { kind := "User", uuid := m0.id.uuid }) = none ∧
        (∀ x ∈ pre, ∀ mx, unmarshalMetadata x.2 = .ok mx →
          env.lookup DBI.bodies (marshalID { kind := "User", uuid := mx.id.uuid }) ≠ none) ∧
        ∀ (fs : FileSystem) (output : String),
          exportJSON fs env output = .error (Error.bodyNotFound m0.id.uuid)) := by
  constructor
  · intro fs output
    cases hx : exportDocs env with
    | error e => exact ⟨e, exportJSON_error_of_exportDocs fs env e output hx⟩
    | ok db =>
      obtain ⟨mt2, hm2, hf⟩ := exportDocs_ok env db hx
      rw [hm] at hm2
      simp only [Option.some.injEq] at hm2
      subst hm2
      obtain ⟨doc, _, hdoc1, hdoc2⟩ := forall₂_mem_left hf hr
      rw [hd] at hdoc1
      simp only [Except.ok.injEq] at hdoc1
      rw [← hdoc1, ho] at hdoc2
      simp at hdoc2
  · intro hb hall
    obtain ⟨bt, hbt⟩ := Option.ne_none_iff_exists'.mp hb
    obtain ⟨pre, post, r0, m0, h1, h2, h3, h4⟩ := first_orphan env mt hall ⟨r, hr, m, hd, ho⟩
    refine ⟨pre, post, r0, m0, h1, h2, h3, h4, ?_⟩
    intro fs output
    apply exportJSON_error_of_exportDocs
    unfold exportDocs
    rw [getAllMetadata_eq, hm]
    simp only
    cases hl : getAllMetadataLoop mt [] with
    | error e =>
      obtain ⟨x, hx, e2, he2⟩ := getAllMetadataLoop_error _ _ _ hl
      obtain ⟨mx, hmx⟩ := hall x hx
      rw [hmx] at he2
      simp at he2
    | ok ms =>
      simp only
      obtain ⟨ms2, hms, hf⟩ := getAllMetadataLoop_ok _ _ _ hl
      simp only [List.nil_append] at hms
      subst hms
      rw [h1] at hf
      obtain ⟨p2, q2, b, hsplit, hfp, hrb, _⟩ := forall₂_split_left hf
      rw [h2] at hrb
      simp only [Except.ok.injEq] at hrb
      subst hrb
      rw [hsplit]
      apply exportLoop_first_orphan env bt hbt p2 q2 m0 [] _ h3
      intro x hx
      obtain ⟨a, ha, hax⟩ := forall₂_mem_right hfp hx
      exact h4 a ha x hax

/-- Witness for C2: in `orphanStore2` the record under `k2` is the first one
without a body. -/
theorem export_orphan_witness :
    (orphanStore2.metadata = some orphanTable ∧
      ("k2", marshalMetadata ⟨⟨"User", "a"⟩, "T", false, ""⟩) ∈ orphanTable ∧
      unmarshalMetadata (marshalMetadata ⟨⟨"User", "a"⟩, "T", false, ""⟩)
        = .ok ⟨⟨"User", "a"⟩, "T", false, ""⟩ ∧
      orphanStore2.lookup DBI.bodies (marshalID { kind := "User", uuid := "a" }) = none ∧
      orphanStore2.bodies ≠ none ∧
      (∀ x ∈ orphanTable, ∃ mx, unmarshalMetadata x.2 = .ok mx)) ∧
    (∀ (fs : FileSystem) (output : String), ∃ e,
      exportJSON fs orphanStore2 output = .error e) ∧
    (∃ (pre post : Table) (r0 : String × String) (m0 : Metadata),
        orphanTable = pre ++ r0 :: post ∧ unmarshalMetadata r0.2 = .ok m0 ∧
        orphanStore2.lookup DBI.bodies (marshalID { kind := "User", uuid := m0.id.uuid })
          = none ∧
        (∀ x ∈ pre, ∀ mx, unmarshalMetadata x.2 = .ok mx →
          orphanStore2.lookup DBI.bodies (marshalID { kind := "User", uuid := mx.id.uuid })
            ≠ none) ∧
        ∀ (fs : FileSystem) (output : String),
          exportJSON fs orphanStore2 output = .error (Error.bodyNotFound m0.id.uuid)) ∧
    exportJSON FileSystem.noDir orphanStore2 "-" = .error (Error.bodyNotFound "a") :=
  have hall : ∀ x ∈ orphanTable, ∃ mx, unmarshalMetadata x.2 = .ok mx := by
    intro x hx
    simp only [orphanTable, List.mem_cons, List.mem_singleton, List.not_mem_nil, or_false] at hx
    rcases hx with rfl | rfl
    · exact ⟨_, unmarshalMetadata_marshalMetadata _⟩
    · exact ⟨_, unmarshalMetadata_marshalMetadata _⟩
  have hthm := export_orphan orphanStore2 orphanTable
    ("k2", marshalMetadata ⟨⟨"User", "a"⟩, "T", false, ""⟩)
    ⟨⟨"User", "a"⟩, "T", false, ""⟩ (by decide) (by decide) (by decide) (by decide)
  ⟨⟨by decide, by decide, by decide, by decide, by decide, hall⟩,
    hthm.1, hthm.2 (by decide) hall, by decide⟩

/-- Counterexample to C2 as stated: in `orphanStore` the record of uuid `a`
has no body, and `export` fails with the decode error of a later record, not
with `body with UUID a not found`. -/
theorem export_orphan_other_error :
    orphanStore.lookup DBI.bodies (marshalID { kind := "User", uuid := "a" }) = none ∧
    exportJSON FileSystem.noDir orphanStore "-"
      = .error (Error.wrap "unmarshaling metadata" Error.syntaxError) ∧
    exportJSON FileSystem.noDir orphanStore "-" ≠ .error (Error.bodyNotFound "a") := by
  decide

/-! ## Round trip -/

theorem Table.mem_put {t : Table} {k v : String} {r : String × String}
    (h : r ∈ t.put k v) : r = (k, v) ∨ r ∈ t := by
  induction t with
  | nil =>
    simp only [Table.put, List.mem_singleton] at h
    exact Or.inl h
  | cons kv t ih =>
    obtain ⟨k1, v1⟩ := kv
    simp only [Table.put] at h
    by_cases h1 : bytesLess k.data k1.data = true
    · simp only [h1, if_true, List.mem_cons] at h
      rcases h with h | h | h
      · exact Or.inl h
      · exact Or.inr (by simp [h])
      · exact Or.inr (by simp [h])
    · by_cases h2 : k = k1
      · subst h2
        simp only [bytesLess_irrefl, Bool.false_eq_true, if_false, if_true, List.mem_cons] at h
        rcases h with h | h
        · exact Or.inl h
        · exact Or.inr (by simp [h])
      · simp only [h1, h2, if_false, List.mem_cons, Bool.false_eq_true] at h
        rcases h with h4 | h4
        · exact Or.inr (by simp [h4])
        · rcases ih h4 with h3 | h3
          · exact Or.inl h3
          · exact Or.inr (by simp [h3])

theorem Table.mem_of_get {t : Table} {k v : String} (h : t.get k = some v) : (k, v) ∈ t := by
  induction t with
  | nil => simp [Table.get] at h
  | cons kv t ih =>
    obtain ⟨k1, v1⟩ := kv
    simp only [Table.get] at h
    by_cases h1 : k1 = k
    · simp only [h1, if_true, Option.some.injEq] at h
      simp [h1, h]
    · simp only [h1, if_false] at h
      exact List.mem_cons_of_mem _ (ih h)

theorem Table.sorted_put {t : Table} (k v : String) (h : t.Sorted) : (t.put k v).Sorted := by
  unfold Table.Sorted at h ⊢
  induction t with
  | nil => simp [Table.put]
  | cons kv t ih =>
    obtain ⟨k1, v1⟩ := kv
    rw [List.pairwise_cons] at h
    obtain ⟨hhead, htail⟩ := h
    simp only [Table.put]
    by_cases h1 : bytesLess k.data k1.data = true
    · simp only [h1, if_true]
      refine List.pairwise_cons.mpr ⟨?_, List.pairwise_cons.mpr ⟨hhead, htail⟩⟩
      intro x hx
      rcases List.mem_cons.mp hx with rfl | hx
      · exact h1
      · exact bytesLess_trans h1 (hhead x hx)
    · by_cases h2 : k = k1
      · simp only [h1, h2, if_true, if_false]
        subst h2
        simp only [bytesLess_irrefl, Bool.false_eq_true, if_false]
        exact List.pairwise_cons.mpr ⟨hhead, htail⟩
      · simp only [h1, h2, if_false]
        refine List.pairwise_cons.mpr ⟨?_, ih htail⟩
        intro x hx
        rcases Table.mem_put hx with rfl | hx
        · by_contra hc
          exact h2 (keyLess_total (by simpa using h1) (by simpa using hc))
        · exact hhead x hx

theorem Table.get_of_mem_sorted {t : Table} (h : t.Sorted) {k v : String} (hm : (k, v) ∈ t) :
    t.get k = some v := by
  unfold Table.Sorted at h
  induction t with
  | nil => simp at hm
  | cons kv t ih =>
    obtain ⟨k1, v1⟩ := kv
    rw [List.pairwise_cons] at h
    obtain ⟨hhead, htail⟩ := h
    rcases List.mem_cons.mp hm with heq | hmem
    · simp only [Prod.mk.injEq] at heq
      simp [Table.get, heq.1, heq.2]
    · have hlt := hhead (k, v) hmem
      have hne : ¬ k1 = k := by
        intro e
        subst e
        simp [bytesLess_irrefl] at hlt
      simp only [Table.get, hne, if_false]
      exact ih htail hmem

/-- The metadata table after the puts of a list of documents. -/
theorem Env.foldl_putDoc_metadata (S : List Prompt) (env : Env) :
    (S.foldl Env.putDoc env).metadata.getD [] =
      S.foldl (fun t d => Table.put t (marshalID d.metadata.id) (marshalMetadata d.metadata))
        (env.metadata.getD []) := by
  induction S generalizing env with
  | nil => rfl
  | cons d S ih =>
    simp only [List.foldl_cons]
    rw [ih]
    simp [Env.putDoc]

theorem Env.foldl_putDoc_metadata_isSome (S : List Prompt) (env : Env)
    (h : S ≠ [] ∨ env.metadata ≠ none) : (S.foldl Env.putDoc env).metadata ≠ none := by
  induction S generalizing env with
  | nil =>
    rcases h with h | h
    · exact absurd rfl h
    · exact h
  | cons d S ih =>
    simp only [List.foldl_cons]
    exact ih _ (Or.inr (by simp [Env.putDoc]))

theorem mem_foldl_put (S : List Prompt) (t0 : Table) (r : String × String)
    (h : r ∈ S.foldl (fun t d => Table.put t (marshalID d.metadata.id)
      (marshalMetadata d.metadata)) t0) :
    (∃ d ∈ S, r = (marshalID d.metadata.id, marshalMetadata d.metadata)) ∨ r ∈ t0 := by
  induction S generalizing t0 with
  | nil => exact Or.inr h
  | cons d S ih =>
    simp only [List.foldl_cons] at h
    rcases ih _ h with ⟨e, he, hr⟩ | hr
    · exact Or.inl ⟨e, List.mem_cons_of_mem _ he, hr⟩
    · rcases Table.mem_put hr with hr | hr
      · exact Or.inl ⟨d, List.mem_cons_self _ _, hr⟩
      · exact Or.inr hr

theorem sorted_foldl_put (S : List Prompt) (t0 : Table) (h : t0.Sorted) :
    (S.foldl (fun t d => Table.put t (marshalID d.metadata.id)
      (marshalMetadata d.metadata)) t0).Sorted := by
  induction S generalizing t0 with
  | nil => exact h
  | cons d S ih =>
    simp only [List.foldl_cons]
    exact ih _ (Table.sorted_put _ _ h)

/-- Among the documents of a list that have a given identity there is a last one. -/
theorem exists_last_with_id (S : List Prompt) (i : ID) (h : ∃ d ∈ S, d.metadata.id = i) :
    ∃ (pre post : List Prompt) (e : Prompt), S = pre ++ e :: post ∧
      e.metadata.id = i ∧ ∀ x ∈ post, x.metadata.id ≠ e.metadata.id := by
  induction S with
  | nil =>
    obtain ⟨d, hd, _⟩ := h
    simp at hd
  | cons a S ih =>
    by_cases hin : ∃ x ∈ S, x.metadata.id = i
    · obtain ⟨pre, post, e, h1, h2, h3⟩ := ih hin
      exact ⟨a :: pre, post, e, by simp [h1], h2, h3⟩
    · obtain ⟨d, hd, hdi⟩ := h
      rcases List.mem_cons.mp hd with rfl | hmem
      · refine ⟨[], S, d, rfl, hdi, ?_⟩
        intro x hx hxid
        exact hin ⟨x, hx, hxid.trans hdi⟩
      · exact absurd ⟨d, hmem, hdi⟩ hin

theorem Env.lookup_putDoc_ne_none (env : Env) (d : Prompt) (dbi : DBI) (k : String)
    (h : env.lookup dbi k ≠ none) : (env.putDoc d).lookup dbi k ≠ none := by
  by_cases hk : k = marshalID d.metadata.id
  · subst hk
    cases dbi
    · rw [Env.lookup_putDoc_metadata]; simp
    · rw [Env.lookup_putDoc_bodies]; simp
  · rw [Env.lookup_putDoc_of_ne env d dbi k hk]
    exact h

theorem Env.lookup_foldl_putDoc_ne_none (S : List Prompt) (env : Env) (dbi : DBI) (k : String)
    (h : env.lookup dbi k ≠ none) : (S.foldl Env.putDoc env).lookup dbi k ≠ none := by
  induction S generalizing env with
  | nil => exact h
  | cons d S ih =>
    simp only [List.foldl_cons]
    exact ih _ (Env.lookup_putDoc_ne_none env d dbi k h)

theorem exists_forall₂ {α β : Type} {R : α → β → Prop} (l : List α)
    (h : ∀ a ∈ l, ∃ b, R a b) : ∃ l2, List.Forall₂ R l l2 := by
  induction l with
  | nil => exact ⟨[], List.Forall₂.nil⟩
  | cons a l ih =>
    obtain ⟨b, hb⟩ := h a (List.mem_cons_self _ _)
    obtain ⟨l2, hl2⟩ := ih (fun x hx => h x (List.mem_cons_of_mem _ hx))
    exact ⟨b :: l2, List.Forall₂.cons hb hl2⟩

theorem id_eq_user (d : Prompt) (h : d.metadata.id.kind = "User") :
    ({ kind := "User", uuid := d.metadata.id.uuid } : ID) = d.metadata.id := by
  obtain ⟨⟨⟨k, u⟩, t, df, s⟩, c⟩ := d
  simp only at h
  subst h
  rfl

theorem importJSON_of_accepts (eng : Engine) (jsonBytes : String) (S : List Prompt) (env : Env)
    (hdec : unmarshalPrompts jsonBytes = .ok (S.map some))
    (hacc : ∀ d ∈ S, eng.Accepts d) :
    importJSON eng jsonBytes env = (S.foldl Env.putDoc env, Outcome.nil) := by
  simp [importJSON, hdec, Env.update, importLoop_of_accepts eng S _ hacc]

/-- The join after the documents of a snapshot of `"User"` documents were
written into a store in which every record had a body: `exportDocs` succeeds,
returns every document that is the last one with its identity, and returns
documents of the snapshot only when the metadata table was empty before. -/
theorem exportDocs_foldl_putDoc (S : List Prompt) (env : Env)
    (hkind : ∀ d ∈ S, d.metadata.id.kind = "User")
    (hclean : ∀ r ∈ env.metadata.getD [], ∃ m, unmarshalMetadata r.2 = .ok m ∧
      env.lookup DBI.bodies (marshalID { kind := "User", uuid := m.id.uuid }) ≠ none)
    (hex : S ≠ [] ∨ env.metadata ≠ none) :
    ∃ db : List Prompt,
      exportDocs (S.foldl Env.putDoc env) = .ok db ∧
      (∀ (pre post : List Prompt) (d : Prompt), S = pre ++ d :: post →
        (∀ e ∈ post, e.metadata.id ≠ d.metadata.id) → d ∈ db) ∧
      (env.metadata.getD [] = [] → ∀ d ∈ db, d ∈ S) := by
  obtain ⟨mt2, hmt2⟩ := Option.ne_none_iff_exists'.mp (Env.foldl_putDoc_metadata_isSome S env hex)
  have hmt2eq : mt2 = S.foldl (fun t d => Table.put t (marshalID d.metadata.id)
      (marshalMetadata d.metadata)) (env.metadata.getD []) := by
    rw [← Env.foldl_putDoc_metadata, hmt2]
    rfl
  have hlookup : ∀ k, (S.foldl Env.putDoc env).lookup DBI.metadata k = mt2.get k := by
    intro k
    simp [Env.lookup, Env.table, hmt2]
  -- the body of a document of the snapshot is there after the import
  have hbody : ∀ d ∈ S, ∃ e ∈ S, e.metadata.id = d.metadata.id ∧
      (S.foldl Env.putDoc env).lookup DBI.metadata (marshalID d.metadata.id)
        = some (marshalMetadata e.metadata) ∧
      (S.foldl Env.putDoc env).lookup DBI.bodies (marshalID d.metadata.id) = some e.content := by
    intro d hd
    obtain ⟨pre, post, e, hS, heid, hlast⟩ := exists_last_with_id S d.metadata.id ⟨d, hd, rfl⟩
    have hl := Env.lookup_foldl_putDoc_last pre post e env hlast
    rw [← hS, heid] at hl
    exact ⟨e, by rw [hS]; simp, heid, hl.1, hl.2⟩
  have hrec : ∀ r ∈ mt2, ∃ doc : Prompt, unmarshalMetadata r.2 = .ok doc.metadata ∧
      (S.foldl Env.putDoc env).lookup DBI.bodies
        (marshalID { kind := "User", uuid := doc.metadata.id.uuid }) = some doc.content := by
    intro r hr
    rw [hmt2eq] at hr
    rcases mem_foldl_put S _ r hr with ⟨d, hd, rfl⟩ | hold
    · obtain ⟨e, _, _, _, hb⟩ := hbody d hd
      refine ⟨⟨d.metadata, e.content⟩, unmarshalMetadata_marshalMetadata _, ?_⟩
      simp only
      rw [id_eq_user d (hkind d hd)]
      exact hb
    · obtain ⟨m, hm, hb⟩ := hclean r hold
      obtain ⟨c, hc⟩ := Option.ne_none_iff_exists'.mp
        (Env.lookup_foldl_putDoc_ne_none S env DBI.bodies _ hb)
      exact ⟨⟨m, c⟩, hm, hc⟩
  obtain ⟨db, hdb⟩ := exists_forall₂ mt2 hrec
  refine ⟨db, exportDocs_of_forall₂ _ mt2 db hmt2 hdb, ?_, ?_⟩
  · intro pre post d hS hlast
    have hl := Env.lookup_foldl_putDoc_last pre post d env hlast
    rw [← hS] at hl
    have hmem : (marshalID d.metadata.id, marshalMetadata d.metadata) ∈ mt2 :=
      Table.mem_of_get (by rw [← hlookup]; exact hl.1)
    obtain ⟨doc, hdoc, h1, h2⟩ := forall₂_mem_left hdb hmem
    simp only at h1
    rw [unmarshalMetadata_marshalMetadata] at h1
    simp only [Except.ok.injEq] at h1
    have hd : d ∈ S := by rw [hS]; simp
    rw [← h1, id_eq_user d (hkind d hd), hl.2] at h2
    simp only [Option.some.injEq] at h2
    have : doc = d := by
      obtain ⟨dm, dc⟩ := doc
      obtain ⟨m, c⟩ := d
      simp only at h1 h2
      rw [← h1, h2]
    rw [← this]
    exact hdoc
  · intro hempty doc hdoc
    obtain ⟨r, hr, h1, h2⟩ := forall₂_mem_right hdb hdoc
    have hr2 := hr
    rw [hmt2eq] at hr2
    rcases mem_foldl_put S _ r hr2 with ⟨e, he, rfl⟩ | hold
    · have hsorted : mt2.Sorted := by
        rw [hmt2eq, hempty]
        exact sorted_foldl_put S [] List.Pairwise.nil
      have hget := Table.get_of_mem_sorted hsorted hr
      obtain ⟨e2, he2, heid, hm2, hb2⟩ := hbody e he
      rw [hlookup, hget] at hm2
      simp only [Option.some.injEq] at hm2
      simp only at h1
      rw [hm2, unmarshalMetadata_marshalMetadata] at h1
      simp only [Except.ok.injEq] at h1
      rw [← heid, ← id_eq_user e2 (hkind e2 he2), h1, h2] at hb2
      simp only [Option.some.injEq] at hb2
      have : doc = e2 := by
        obtain ⟨dm, dc⟩ := doc
        obtain ⟨m, c⟩ := e2
        simp only at h1 hb2
        rw [← h1, hb2]
      rw [this]
      exact he2
    · rw [hempty] at hold
      simp at hold

/-- C1, as the code has it. Take bytes that decode to a snapshot `S` whose
documents all have the kind `"User"`, an engine that accepts their puts, and
a store in which every metadata record decodes and has a body under the
`"User"` key of its uuid (a store without records is one), with `S` not empty
or `metadata.v2` already there. Then `importJSON` returns nil and the join of
`export` on the store succeeds with a collection `db`, which `export` prints
on standard output or writes to the named file; it returns the error of
`os.WriteFile` when the file cannot be written. The collection contains,
exactly as it was, every document of `S` that no later document of `S` shares
its identity with, and when `metadata.v2` held no record before the import
every exported document is a document of `S`. -/
theorem import_export_roundtrip (eng : Engine) (fs : FileSystem) (jsonBytes : String)
    (S : List Prompt) (env : Env)
    (hdec : unmarshalPrompts jsonBytes = .ok (S.map some))
    (hkind : ∀ d ∈ S, d.metadata.id.kind = "User")
    (hacc : ∀ d ∈ S, eng.Accepts d)
    (hclean : ∀ r ∈ env.metadata.getD [], ∃ m, unmarshalMetadata r.2 = .ok m ∧
      env.lookup DBI.bodies (marshalID { kind := "User", uuid := m.id.uuid }) ≠ none)
    (hex : S ≠ [] ∨ env.metadata ≠ none) :
    ∃ (env2 : Env) (db : List Prompt),
      importJSON eng jsonBytes env = (env2, Outcome.nil) ∧
      exportDocs env2 = .ok db ∧
      exportJSON fs env2 "-" = .ok (Output.stdout (marshalIndent db ++ "\n")) ∧
      (∀ output : String, output ≠ "-" →
        exportJSON fs env2 output =
          match fs.writeError output (marshalIndent db) with
          | some code => .error (Error.os code)
          | none => .ok (Output.file output (marshalIndent db))) ∧
      (∀ (pre post : List Prompt) (d : Prompt), S = pre ++ d :: post →
        (∀ e ∈ post, e.metadata.id ≠ d.metadata.id) → d ∈ db) ∧
      (env.metadata.getD [] = [] → ∀ d ∈ db, d ∈ S) := by
  obtain ⟨db, hdb, h1, h2⟩ := exportDocs_foldl_putDoc S env hkind hclean hex
  refine ⟨S.foldl Env.putDoc env, db, importJSON_of_accepts eng jsonBytes S env hdec hacc,
    hdb, ?_, ?_, h1, h2⟩
  · simp [exportJSON, hdb]
  · intro output ho
    simp only [exportJSON, hdb, ho, if_false]

/-- Witness for C1: `twoDocs` imported into `joinStore`. -/
theorem import_export_roundtrip_witness :
    (unmarshalPrompts twoDocs = .ok (twoDocsList.map some) ∧
      (∀ d ∈ twoDocsList, d.metadata.id.kind = "User") ∧
      (∀ d ∈ twoDocsList, Engine.acceptAll.Accepts d) ∧
      (∀ r ∈ joinStore.metadata.getD [], ∃ m, unmarshalMetadata r.2 = .ok m ∧
        joinStore.lookup DBI.bodies (marshalID { kind := "User", uuid := m.id.uuid }) ≠ none) ∧
      (twoDocsList ≠ [] ∨ joinStore.metadata ≠ none)) ∧
    ∃ (env2 : Env) (db : List Prompt),
      importJSON Engine.acceptAll twoDocs joinStore = (env2, Outcome.nil) ∧
      exportDocs env2 = .ok db ∧
      exportJSON FileSystem.noDir env2 "-" = .ok (Output.stdout (marshalIndent db ++ "\n")) ∧
      (∀ output : String, output ≠ "-" →
        exportJSON FileSystem.noDir env2 output =
          match FileSystem.noDir.writeError output (marshalIndent db) with
          | some code => .error (Error.os code)
          | none => .ok (Output.file output (marshalIndent db))) ∧
      (∀ (pre post : List Prompt) (d : Prompt), twoDocsList = pre ++ d :: post →
        (∀ e ∈ post, e.metadata.id ≠ d.metadata.id) → d ∈ db) ∧
      (joinStore.metadata.getD [] = [] → ∀ d ∈ db, d ∈ twoDocsList) :=
  have hclean : ∀ r ∈ joinStore.metadata.getD [], ∃ m, unmarshalMetadata r.2 = .ok m ∧
      joinStore.lookup DBI.bodies (marshalID { kind := "User", uuid := m.id.uuid }) ≠ none := by
    intro r hr
    simp only [joinStore, Option.getD_some, List.mem_cons, List.mem_singleton,
      List.not_mem_nil, or_false] at hr
    rcases hr with rfl | rfl
    · exact ⟨_, unmarshalMetadata_marshalMetadata _, by decide⟩
    · exact ⟨_, unmarshalMetadata_marshalMetadata _, by decide⟩
  have hacc : ∀ d ∈ twoDocsList, Engine.acceptAll.Accepts d :=
    fun _ _ _ => ⟨rfl, rfl⟩
  ⟨⟨by decide, by decide, hacc, hclean, Or.inl (by decide)⟩,
    import_export_roundtrip Engine.acceptAll FileSystem.noDir twoDocs twoDocsList joinStore
      (by decide) (by decide) hacc hclean (Or.inl (by decide))⟩

/-- Counterexample to C1 as stated: a well-formed snapshot whose document has
the kind `"Default"` is imported into an empty store without error, its body
goes under the `"Default"` key, and `export` then fails looking for the body
under the `"User"` key. -/
theorem roundtrip_fails_for_other_kind :
    importJSON Engine.acceptAll defaultKindDoc freshStore =
      (⟨some [(marshalID ⟨"Default", "abc"⟩,
          marshalMetadata ⟨⟨"Default", "abc"⟩, "Greeting", true, "2025-01-01T00:00:00Z"⟩)],
        some [(marshalID ⟨"Default", "abc"⟩, "Hello")]⟩, Outcome.nil) ∧
    exportJSON FileSystem.noDir (importJSON Engine.acceptAll defaultKindDoc freshStore).1 "-"
      = .error (Error.bodyNotFound "abc") := by
  decide

end ZedPrompts
